import Mathlib

/-!
Shallow embedding of fuzzion.cpp (fuzzion 2.0): a scanner that finds reads
containing two target nucleotide sequences (or one present and one absent),
matching each approximately with a bounded number of substitutions.

Strings are modelled as `List Char`; the read buffer (a `const char *` plus a
length in the source) is modelled as a function `Int → Char` together with a
`Nat` length, so that out-of-bounds behaviour can be reasoned about
explicitly.  Machine `int` values used for search bounds are modelled as
`Int`.  The process-wide `maxsub` global is threaded as an explicit `Nat`
parameter.  Exceptions thrown by constructors are modelled with `Option`.
-/

/-- Embedding of the character-level part of `toupperSequence` (std::toupper
in the C locale): ASCII lowercase letters are mapped to uppercase, every
other character is unchanged. -/
def toupperChar (c : Char) : Char :=
  if 97 ≤ c.toNat ∧ c.toNat ≤ 122 then Char.ofNat (c.toNat - 32) else c

/-- Embedding of `toupperSequence` (fuzzion.cpp lines 134-147). -/
def toupperSequence (sequence : List Char) : List Char :=
  sequence.map toupperChar

/-- Embedding of `getDelimitedStrings` (fuzzion.cpp lines 153-167): splits a
string on a delimiter; the do-while loop always produces at least one value,
and a trailing delimiter produces a trailing empty value. -/
def getDelimitedStrings (delimiter : Char) : List Char → List (List Char)
  | [] => [[]]
  | c :: cs =>
      if c = delimiter then [] :: getDelimitedStrings delimiter cs
      else
        match getDelimitedStrings delimiter cs with
        | [] => [[c]]
        | seg :: rest => (c :: seg) :: rest

/-- Embedding of `isACGT` (fuzzion.cpp lines 172-177). -/
def isACGT (ch : Char) : Bool :=
  let c := toupperChar ch
  c = 'A' || c = 'C' || c = 'G' || c = 'T'

/-- Embedding of `isAllACGT` (fuzzion.cpp lines 182-191). -/
def isAllACGT (sequence : List Char) : Bool :=
  sequence.all isACGT

/-- Embedding of the `Target` class data (fuzzion.cpp lines 30-50): `want` is
the presence polarity and `seq` the stored candidate sequences in input
order.  `seqcount`, `seqlen`, `minseqlen` and `maxseqlen` are recovered as
functions of `seq` exactly as the constructor computes them. -/
structure Target where
  want : Bool
  seq : List (List Char)
deriving DecidableEq, Repr

/-- Candidate sequence at index `i` (the source's `seq[i]`). -/
def seqAt (t : Target) (i : Nat) : List Char :=
  t.seq.getD i []

/-- Candidate length at index `i` (the source's `seqlen[i]`). -/
def seqlenAt (t : Target) (i : Nat) : Nat :=
  (seqAt t i).length

/-- Embedding of the min/max scan of the `Target` constructor (fuzzion.cpp
lines 216-220), including its else-if structure. -/
def minmaxLoop : List Nat → Nat → Nat → Nat × Nat
  | [], mn, mx => (mn, mx)
  | l :: ls, mn, mx =>
      if l < mn then minmaxLoop ls l mx
      else if l > mx then minmaxLoop ls mn l
      else minmaxLoop ls mn mx

/-- The source's `minseqlen` field, recomputed from the stored candidates the
way the constructor does (fuzzion.cpp lines 213-220). -/
def Target.minseqlen (t : Target) : Nat :=
  (minmaxLoop (t.seq.map List.length).tail ((t.seq.headD []).length)
    ((t.seq.headD []).length)).1

/-- The source's `maxseqlen` field, recomputed from the stored candidates the
way the constructor does (fuzzion.cpp lines 213-220). -/
def Target.maxseqlen (t : Target) : Nat :=
  (minmaxLoop (t.seq.map List.length).tail ((t.seq.headD []).length)
    ((t.seq.headD []).length)).2

/-- Polarity parsed from the (uppercased) target string: `false` when it
starts with a minus sign (fuzzion.cpp lines 201-207). -/
def isNeg : List Char → Bool
  | '-' :: _ => true
  | _ => false

/-- Remainder of the (uppercased) target string once an optional leading
minus sign is removed (fuzzion.cpp lines 201-207). -/
def stripNeg : List Char → List Char
  | '-' :: rest => rest
  | s => s

/-- Embedding of the `Target` constructor (fuzzion.cpp lines 197-238).
Throwing `std::runtime_error` is modelled as `none`. -/
def mkTarget (targetString : List Char) : Option Target :=
  let s := toupperSequence targetString
  let want := !(isNeg s)
  let s1 := stripNeg s
  let t := getDelimitedStrings '|' s1
  let lens := t.map List.length
  let mm := minmaxLoop lens.tail (lens.headD 0) (lens.headD 0)
  if mm.1 < 8 then none
  else if t.any (fun c => !(isAllACGT c)) then none
  else some ⟨want, t⟩

/-- Embedding of `reverseSequence` (fuzzion.cpp lines 255-265). -/
def reverseSequence (sequence : List Char) : List Char :=
  sequence.reverse

/-- Embedding of the character-level case of `invertSequence`
(fuzzion.cpp lines 280-295): swaps A↔T and C↔G in both cases, every other
character is unchanged. -/
def invertChar : Char → Char
  | 'A' => 'T'
  | 'a' => 't'
  | 'T' => 'A'
  | 't' => 'a'
  | 'C' => 'G'
  | 'c' => 'g'
  | 'G' => 'C'
  | 'g' => 'c'
  | ch => ch

/-- Embedding of `invertSequence` (fuzzion.cpp lines 270-301). -/
def invertSequence (sequence : List Char) : List Char :=
  sequence.map invertChar

/-- Join with a bar separator, as the loop of `Target::reverseComplement`
builds it (fuzzion.cpp lines 311-318). -/
def joinBar : List (List Char) → List Char
  | [] => []
  | [s] => s
  | s :: rest => s ++ '|' :: joinBar rest

/-- Embedding of `Target::reverseComplement` (fuzzion.cpp lines 307-321):
returns the string form of the reverse complement of the target set. -/
def Target.reverseComplement (t : Target) : List Char :=
  (if t.want then [] else ['-']) ++
    joinBar (t.seq.map (fun s => invertSequence (reverseSequence s)))

/-- Embedding of the `TargetPair` class data (fuzzion.cpp lines 54-72). -/
structure TargetPair where
  label : List Char
  left : Target
  right : Target
deriving DecidableEq, Repr

/-- Embedding of the `TargetPair` constructor (fuzzion.cpp lines 404-415):
member initializers run the two `Target` constructors, then the body rejects
an empty label and a double negative. -/
def mkTargetPair (inLabel leftTargetString rightTargetString : List Char) :
    Option TargetPair := do
  let l ← mkTarget leftTargetString
  let r ← mkTarget rightTargetString
  if inLabel = [] then none
  else if !l.want ∧ !r.want then none
  else some ⟨inLabel, l, r⟩

/-- Embedding of `TargetPair::createReverseComplement` (fuzzion.cpp lines
421-427). -/
def createReverseComplement (tp : TargetPair) : Option TargetPair :=
  mkTargetPair tp.label tp.right.reverseComplement tp.left.reverseComplement

/-- Embedding of the per-line work of `readTargetPairs` (fuzzion.cpp lines
525-537): split the line on tabs, require exactly three columns, and build
the pair. -/
def parsePairLine (line : List Char) : Option TargetPair :=
  match getDelimitedStrings '\t' line with
  | [a, b, c] => mkTargetPair a b c
  | _ => none

/-- Catalog contribution of one input line (fuzzion.cpp lines 533-536): the
parsed pair followed by its reverse complement. -/
def processPairLine (line : List Char) : Option (List TargetPair) := do
  let tp ← parsePairLine line
  let m ← createReverseComplement tp
  some [tp, m]

/-- Embedding of the loop of `isMatch` (fuzzion.cpp lines 327-336), with the
read buffer as a function of `Int` positions, the running position `start`
standing for the source's pointer `&readseq[start]` advanced by `i`, and
`numsubs` the running substitution count. -/
def isMatchGo (maxsub : Nat) (f : Int → Char) : Int → List Char → Nat → Bool
  | _, [], _ => true
  | start, t :: ts, numsubs =>
      if f start ≠ t then
        if numsubs + 1 > maxsub then false
        else isMatchGo maxsub f (start + 1) ts (numsubs + 1)
      else isMatchGo maxsub f (start + 1) ts numsubs

/-- Embedding of `isMatch` (fuzzion.cpp lines 327-336): true when the target
matches the read at position `start` with at most `maxsub` substitutions. -/
def isMatch (maxsub : Nat) (f : Int → Char) (start : Int) (target : List Char) :
    Bool :=
  isMatchGo maxsub f start target 0

/-- Inner loop of `Target::findLeftmost` (fuzzion.cpp lines 356-363): scan
start positions left to right; `fuel` is the number of positions still to
try.  Returns the first position where `isMatch` succeeds. -/
def scanUp (maxsub : Nat) (f : Int → Char) (cand : List Char) :
    Int → Nat → Option Int
  | _, 0 => none
  | start, fuel + 1 =>
      if isMatch maxsub f start cand then some start
      else scanUp maxsub f cand (start + 1) fuel

/-- Inner loop of `Target::findRightmost` (fuzzion.cpp lines 387-394): scan
start positions right to left. -/
def scanDown (maxsub : Nat) (f : Int → Char) (cand : List Char) :
    Int → Nat → Option Int
  | _, 0 => none
  | start, fuel + 1 =>
      if isMatch maxsub f start cand then some start
      else scanDown maxsub f cand (start - 1) fuel

/-- Outer loop of `Target::findLeftmost` (fuzzion.cpp lines 352-364): fold
over the candidates, threading the shrinking exclusive end point
`lastMatchEnd` and the best `(matchIndex, matchStart)` recorded so far. -/
def findLeftmostGo (maxsub : Nat) (f : Int → Char) :
    List (List Char) → Nat → Int → Option (Nat × Int) → Option (Nat × Int)
  | [], _, _, acc => acc
  | cand :: rest, i, lastMatchEnd, acc =>
      let lastStart : Int := lastMatchEnd - cand.length
      match scanUp maxsub f cand 0 (lastStart + 1).toNat with
      | some s =>
          findLeftmostGo maxsub f rest (i + 1) (s + cand.length - 1)
            (some (i, s))
      | none => findLeftmostGo maxsub f rest (i + 1) lastMatchEnd acc

/-- Embedding of `Target::findLeftmost` (fuzzion.cpp lines 345-367).  The
boolean result together with the `matchIndex`/`matchStart` out-parameters is
modelled as an `Option (Nat × Int)`. -/
def findLeftmost (maxsub : Nat) (f : Int → Char) (readseqlen : Nat)
    (rightpad : Int) (t : Target) : Option (Nat × Int) :=
  findLeftmostGo maxsub f t.seq 0 ((readseqlen : Int) - rightpad) none

/-- Outer loop of `Target::findRightmost` (fuzzion.cpp lines 383-395),
threading the growing inclusive starting point `lastMatchStart`. -/
def findRightmostGo (maxsub : Nat) (f : Int → Char) (readseqlen : Nat) :
    List (List Char) → Nat → Int → Option (Nat × Int) → Option (Nat × Int)
  | [], _, _, acc => acc
  | cand :: rest, i, lastMatchStart, acc =>
      let firstStart : Int := (readseqlen : Int) - cand.length
      match scanDown maxsub f cand firstStart
          (firstStart - lastMatchStart + 1).toNat with
      | some s =>
          findRightmostGo maxsub f readseqlen rest (i + 1) (s + 1)
            (some (i, s))
      | none => findRightmostGo maxsub f readseqlen rest (i + 1) lastMatchStart acc

/-- Embedding of `Target::findRightmost` (fuzzion.cpp lines 376-398). -/
def findRightmost (maxsub : Nat) (f : Int → Char) (readseqlen : Nat)
    (leftpad : Int) (t : Target) : Option (Nat × Int) :=
  findRightmostGo maxsub f readseqlen t.seq 0 leftpad none

/-- Embedding of the condition of `TargetPair::findMatch` (fuzzion.cpp lines
434-456): the single short-circuiting `&&`/`||` expression deciding whether
the pair is found in the read, written with C++ operator precedence
(`==` over `&&` over `||`). -/
def findMatchPred (maxsub : Nat) (tp : TargetPair) (f : Int → Char)
    (readseqlen : Nat) : Bool :=
  (tp.left.want &&
    (match findLeftmost maxsub f readseqlen
        (if tp.right.want then (tp.right.minseqlen : Int)
         else (tp.right.maxseqlen : Int)) tp.left with
     | some (leftIndex, leftStart) =>
         ((findRightmost maxsub f readseqlen
             (leftStart + (seqlenAt tp.left leftIndex : Int))
             tp.right).isSome == tp.right.want)
     | none => false))
  ||
  (!tp.left.want &&
    (match findRightmost maxsub f readseqlen (tp.left.maxseqlen : Int)
        tp.right with
     | some (_, rightStart) =>
         !(findLeftmost maxsub f readseqlen
             ((readseqlen : Int) - rightStart) tp.left).isSome
     | none => false))

/-- Modelled from the spec, section 4.5: the two-branch pair decision written
as an explicit if-then-else selected by the left set's polarity, with the
reserve and boundary choices exactly as the spec words them. -/
def findMatchSpec (maxsub : Nat) (tp : TargetPair) (f : Int → Char)
    (readseqlen : Nat) : Bool :=
  if tp.left.want then
    match findLeftmost maxsub f readseqlen
        (if tp.right.want then (tp.right.minseqlen : Int)
         else (tp.right.maxseqlen : Int)) tp.left with
    | some (leftIndex, leftStart) =>
        ((findRightmost maxsub f readseqlen
            (leftStart + (seqlenAt tp.left leftIndex : Int))
            tp.right).isSome == tp.right.want)
    | none => false
  else
    match findRightmost maxsub f readseqlen (tp.left.maxseqlen : Int)
        tp.right with
    | some (_, rightStart) =>
        !(findLeftmost maxsub f readseqlen
            ((readseqlen : Int) - rightStart) tp.left).isSome
    | none => false

/-- Read buffer access for a concrete read string: the source's
`readString.c_str()` indexed at `i`.  Out-of-range accesses return a dummy
character. -/
def charAt (a : List Char) (i : Int) : Char :=
  if i < 0 then 'N' else a.getD i.toNat 'N'

/-- Pair decision on a concrete read string, as `TargetPair::findMatch`
derives the buffer and length from the `std::string` (fuzzion.cpp lines
437-438). -/
def findMatchOnRead (maxsub : Nat) (tp : TargetPair) (read : List Char) :
    Bool :=
  findMatchPred maxsub tp (charAt read) read.length

/-- Embedding of the character-level part of `std::tolower` as used by
`highlight` (fuzzion.cpp line 469): ASCII uppercase letters are mapped to
lowercase, every other character is unchanged. -/
def tolowerChar (c : Char) : Char :=
  if 65 ≤ c.toNat ∧ c.toNat ≤ 90 then Char.ofNat (c.toNat + 32) else c

/-- Case inversion on ASCII letters: uppercase becomes lowercase and
lowercase becomes uppercase; other characters are unchanged.  Used to state
the spec's description of the highlighted span. -/
def caseInvChar (c : Char) : Char :=
  if 65 ≤ c.toNat ∧ c.toNat ≤ 90 then Char.ofNat (c.toNat + 32)
  else if 97 ≤ c.toNat ∧ c.toNat ≤ 122 then Char.ofNat (c.toNat - 32)
  else c

/-- Loop of `highlight` (fuzzion.cpp lines 467-469), generalized over the
character transform applied at mismatching positions.  When the target runs
out first (which no in-source call does) the remaining characters are
treated as mismatches. -/
def markSpanGo (inv : Char → Char) : List Char → List Char → List Char
  | [], _ => []
  | r :: rs, t :: ts => (if r = t then r else inv r) :: markSpanGo inv rs ts
  | r :: rs, [] => inv r :: markSpanGo inv rs []

/-- Bracketed span markup: the body of the span with the opening and closing
bracket markers. -/
def markSpan (inv : Char → Char) (readString target : List Char) : List Char :=
  '[' :: markSpanGo inv readString target ++ [']']

/-- Embedding of `highlight` (fuzzion.cpp lines 461-472). -/
def highlight (readString target : List Char) : List Char :=
  markSpan tolowerChar readString target

/-- Embedding of `readString.substr(pos, len)` as used by
`TargetPair::writeMatch`, for in-range arguments. -/
def substrInt (s : List Char) (pos len : Int) : List Char :=
  (s.drop pos.toNat).take len.toNat

/-- Embedding of `TargetPair::writeMatch` (fuzzion.cpp lines 477-515): the
full output line written for a hit, including the trailing newline. -/
def writeMatch (tp : TargetPair) (readName readString : List Char)
    (leftIndex : Nat) (leftStart : Int) (rightIndex : Nat) (rightStart : Int) :
    List Char :=
  let initialBases : Int := if tp.left.want then leftStart else rightStart
  let leftlen : Int := (seqlenAt tp.left leftIndex : Int)
  let rightlen : Int := (seqlenAt tp.right rightIndex : Int)
  let leftNext : Int :=
    (if tp.right.want then rightStart else (readString.length : Int)) -
      leftStart - leftlen
  let rightNext : Int := (readString.length : Int) - rightStart - rightlen
  readName ++ '\t' ::
  ((if initialBases > 0 then substrInt readString 0 initialBases else []) ++
   (if tp.left.want then
      highlight (substrInt readString leftStart leftlen)
          (seqAt tp.left leftIndex) ++
        (if leftNext > 0 then
           substrInt readString (leftStart + leftlen) leftNext
         else [])
    else []) ++
   (if tp.right.want then
      highlight (substrInt readString rightStart rightlen)
          (seqAt tp.right rightIndex) ++
        (if rightNext > 0 then
           substrInt readString (rightStart + rightlen) rightNext
         else [])
    else [])) ++ '\t' :: tp.label ++ ['\n']

/-- Modelled from the spec, section 4.7: the annotated read sequence — each
required side's matched span bracketed and transformed by `inv` at positions
differing from the matched candidate, all other bases literal, spans in read
order — with `Nat` offsets. -/
def annotateWith (inv : Char → Char) (tp : TargetPair) (read : List Char)
    (li ls ri rs : Nat) : List Char :=
  if tp.left.want then
    if tp.right.want then
      read.take ls ++
      markSpan inv ((read.drop ls).take (seqlenAt tp.left li))
        (seqAt tp.left li) ++
      (read.drop (ls + seqlenAt tp.left li)).take
        (rs - (ls + seqlenAt tp.left li)) ++
      markSpan inv ((read.drop rs).take (seqlenAt tp.right ri))
        (seqAt tp.right ri) ++
      read.drop (rs + seqlenAt tp.right ri)
    else
      read.take ls ++
      markSpan inv ((read.drop ls).take (seqlenAt tp.left li))
        (seqAt tp.left li) ++
      read.drop (ls + seqlenAt tp.left li)
  else
    read.take rs ++
    markSpan inv ((read.drop rs).take (seqlenAt tp.right ri))
      (seqAt tp.right ri) ++
    read.drop (rs + seqlenAt tp.right ri)

/-- Modelled from the spec, section 4.7 and the output interface of section
6: the full claimed output record, read name, tab, annotated sequence, tab,
label, newline. -/
def claimedLine (inv : Char → Char) (tp : TargetPair)
    (readName read : List Char) (li ls ri rs : Nat) : List Char :=
  readName ++ '\t' :: annotateWith inv tp read li ls ri rs ++
    '\t' :: tp.label ++ ['\n']

/-- Modelled from the claim on `Target::findLeftmost` as stated: identical to
the source's loop except that after recording a match at `start` the
exclusive end bound becomes `start` itself, so that any future candidate's
occurrence must end strictly before the recorded match's start. -/
def findLeftmostClaimGo (maxsub : Nat) (f : Int → Char) :
    List (List Char) → Nat → Int → Option (Nat × Int) → Option (Nat × Int)
  | [], _, _, acc => acc
  | cand :: rest, i, endBound, acc =>
      let lastStart : Int := endBound - cand.length
      match scanUp maxsub f cand 0 (lastStart + 1).toNat with
      | some s => findLeftmostClaimGo maxsub f rest (i + 1) s (some (i, s))
      | none => findLeftmostClaimGo maxsub f rest (i + 1) endBound acc

/-- Modelled from the claim on `Target::findLeftmost` as stated; see
`findLeftmostClaimGo`. -/
def findLeftmostClaim (maxsub : Nat) (f : Int → Char) (readseqlen : Nat)
    (rightpad : Int) (t : Target) : Option (Nat × Int) :=
  findLeftmostClaimGo maxsub f t.seq 0 ((readseqlen : Int) - rightpad) none

/-- Number of positions where the read buffer starting at `start` differs
from the target, the count `isMatch` bounds. -/
def numDiffFrom (f : Int → Char) : Int → List Char → Nat
  | _, [] => 0
  | start, t :: ts =>
      (if f start = t then 0 else 1) + numDiffFrom f (start + 1) ts

/-- Number of positions where two character buffers differ, compared
pairwise. -/
def numDiffL : List Char → List Char → Nat
  | a :: as, b :: bs => (if a = b then 0 else 1) + numDiffL as bs
  | _, _ => 0

/-- The bounded comparison applied to two character buffers, the first taken
as the read window and the second as the target. -/
def isMatchBuf (maxsub : Nat) (a b : List Char) : Bool :=
  isMatch maxsub (charAt a) 0 b

/-- Reverse complement of a single candidate sequence, as
`Target::reverseComplement` transforms each stored candidate (fuzzion.cpp
lines 313-315). -/
def revcompSeq (s : List Char) : List Char :=
  invertSequence (reverseSequence s)

/-- Candidate spellings parsed from a target specification string: uppercase,
strip the optional leading minus, split on bars (fuzzion.cpp lines 199-210). -/
def parsedCandidates (ts : List Char) : List (List Char) :=
  getDelimitedStrings '|' (stripNeg (toupperSequence ts))

/-- Polarity parsed from a target specification string (fuzzion.cpp lines
201-207). -/
def targetWant (ts : List Char) : Bool :=
  !(isNeg (toupperSequence ts))

/-! ### Lemmas about the bounded-substitution comparison -/

theorem isMatchGo_eq_decide (maxsub : Nat) (f : Int → Char)
    (target : List Char) : ∀ (start : Int) (numsubs : Nat), numsubs ≤ maxsub →
    isMatchGo maxsub f start target numsubs =
      decide (numsubs + numDiffFrom f start target ≤ maxsub) := by
  induction target with
  | nil =>
      intro start n hn
      simp [isMatchGo, numDiffFrom]
      omega
  | cons t ts ih =>
      intro start n hn
      simp only [isMatchGo, numDiffFrom]
      by_cases h : f start = t
      · rw [if_neg (fun hc => hc h), ih (start + 1) n hn]
        exact decide_eq_decide.mpr (by simp [h]; try omega)
      · rw [if_pos h]
        by_cases h2 : n + 1 > maxsub
        · rw [if_pos h2]
          symm
          rw [decide_eq_false_iff_not]
          simp only [if_neg h]
          omega
        · rw [if_neg h2, ih (start + 1) (n + 1) (by omega)]
          exact decide_eq_decide.mpr (by simp [if_neg h]; try omega)

theorem isMatch_eq_decide (maxsub : Nat) (f : Int → Char) (start : Int)
    (target : List Char) :
    isMatch maxsub f start target =
      decide (numDiffFrom f start target ≤ maxsub) := by
  unfold isMatch
  rw [isMatchGo_eq_decide maxsub f target start 0 (Nat.zero_le _)]
  simp

theorem charAt_cons_succ (x : Char) (xs : List Char) (k : Int) (hk : 0 ≤ k) :
    charAt (x :: xs) (k + 1) = charAt xs k := by
  unfold charAt
  rw [if_neg (by omega), if_neg (by omega)]
  have h1 : (k + 1).toNat = k.toNat + 1 := by omega
  rw [h1]
  rfl

theorem charAt_cons_zero (x : Char) (xs : List Char) :
    charAt (x :: xs) 0 = x := by
  unfold charAt
  rw [if_neg (by omega)]
  rfl

theorem numDiffFrom_shift (x : Char) (xs : List Char) :
    ∀ (b : List Char) (k : Int), 0 ≤ k →
    numDiffFrom (charAt (x :: xs)) (k + 1) b = numDiffFrom (charAt xs) k b := by
  intro b
  induction b with
  | nil => intro k hk; rfl
  | cons t ts ih =>
      intro k hk
      unfold numDiffFrom
      rw [charAt_cons_succ x xs k hk, ih (k + 1) (by omega)]

theorem numDiffFrom_eq_numDiffL :
    ∀ (b a : List Char), b.length ≤ a.length →
    numDiffFrom (charAt a) 0 b = numDiffL a b := by
  intro b
  induction b with
  | nil =>
      intro a _
      cases a <;> rfl
  | cons t ts ih =>
      intro a hlen
      match a with
      | [] => simp at hlen
      | x :: xs =>
          unfold numDiffFrom numDiffL
          rw [charAt_cons_zero, numDiffFrom_shift x xs ts 0 (by omega),
            ih xs (by simpa using hlen)]

theorem numDiffL_comm : ∀ (a b : List Char), numDiffL a b = numDiffL b a
  | [], [] => rfl
  | [], _ :: _ => rfl
  | _ :: _, [] => rfl
  | a :: as, b :: bs => by
      unfold numDiffL
      rw [numDiffL_comm as bs]
      by_cases h : a = b
      · rw [if_pos h, if_pos h.symm]
      · rw [if_neg h, if_neg (fun h2 => h h2.symm)]

/-- C3: for equal-length character buffers, `isMatch` returns true exactly
when the number of differing positions is at most the threshold; hence it is
symmetric in the two buffers and monotone in the threshold. -/
theorem isMatch_characterization (maxsub : Nat) (a b : List Char)
    (h : a.length = b.length) :
    (isMatchBuf maxsub a b = true ↔ numDiffL a b ≤ maxsub) ∧
    isMatchBuf maxsub a b = isMatchBuf maxsub b a ∧
    (∀ k, maxsub ≤ k → isMatchBuf maxsub a b = true →
      isMatchBuf k a b = true) := by
  have key : ∀ (m : Nat) (u v : List Char), u.length = v.length →
      (isMatchBuf m u v = true ↔ numDiffL u v ≤ m) := by
    intro m u v huv
    unfold isMatchBuf
    rw [isMatch_eq_decide, numDiffFrom_eq_numDiffL v u (le_of_eq huv.symm)]
    simp
  refine ⟨key maxsub a b h, ?_, ?_⟩
  · have h1 := key maxsub a b h
    have h2 := key maxsub b a h.symm
    rw [numDiffL_comm a b] at h1
    by_cases hm : numDiffL b a ≤ maxsub
    · rw [h1.mpr hm, h2.mpr hm]
    · have e1 : isMatchBuf maxsub a b = false := by
        cases hq : isMatchBuf maxsub a b
        · rfl
        · exact absurd (h1.mp hq) hm
      have e2 : isMatchBuf maxsub b a = false := by
        cases hq : isMatchBuf maxsub b a
        · rfl
        · exact absurd (h2.mp hq) hm
      rw [e1, e2]
  · intro k hk hab
    exact (key k a b h).mpr (le_trans ((key maxsub a b h).mp hab) hk)

/-- Closed instance of `isMatch_characterization` at a concrete input. -/
theorem isMatch_characterization_witness :
    ['A', 'C', 'G'].length = ['A', 'G', 'G'].length ∧
    isMatchBuf 1 ['A', 'C', 'G'] ['A', 'G', 'G'] =
      isMatchBuf 1 ['A', 'G', 'G'] ['A', 'C', 'G'] ∧
    (isMatchBuf 1 ['A', 'C', 'G'] ['A', 'G', 'G'] = true ↔
      numDiffL ['A', 'C', 'G'] ['A', 'G', 'G'] ≤ 1) :=
  ⟨by decide,
   (isMatch_characterization 1 ['A', 'C', 'G'] ['A', 'G', 'G'] (by decide)).2.1,
   (isMatch_characterization 1 ['A', 'C', 'G'] ['A', 'G', 'G'] (by decide)).1⟩

/-! ### Characterization of the directional scans -/

theorem scanUp_eq_some (maxsub : Nat) (f : Int → Char) (cand : List Char) :
    ∀ (fuel : Nat) (start s : Int),
    (scanUp maxsub f cand start fuel = some s ↔
      (start ≤ s ∧ s < start + fuel ∧ isMatch maxsub f s cand = true ∧
        ∀ u, start ≤ u → u < s → isMatch maxsub f u cand = false)) := by
  intro fuel
  induction fuel with
  | zero =>
      intro start s
      simp only [scanUp]
      constructor
      · intro hc; exact absurd hc (by simp)
      · intro ⟨h1, h2, _⟩; omega
  | succ n ih =>
      intro start s
      simp only [scanUp]
      by_cases hm : isMatch maxsub f start cand = true
      · rw [if_pos hm]
        constructor
        · intro hc
          have hs : s = start := by
            have := Option.some.inj hc
            omega
          subst hs
          exact ⟨le_refl _, by push_cast; omega, hm, fun u h1 h2 => by omega⟩
        · intro ⟨h1, h2, h3, h4⟩
          by_cases he : s = start
          · subst he; rfl
          · have : isMatch maxsub f start cand = false :=
              h4 start (le_refl _) (by omega)
            rw [this] at hm
            exact absurd hm (by simp)
      · rw [if_neg hm]
        rw [ih (start + 1) s]
        constructor
        · intro ⟨h1, h2, h3, h4⟩
          refine ⟨by omega, by push_cast at h2 ⊢; omega, h3, ?_⟩
          intro u hu1 hu2
          by_cases he : u = start
          · subst he
            cases hq : isMatch maxsub f u cand
            · rfl
            · exact absurd hq hm
          · exact h4 u (by omega) hu2
        · intro ⟨h1, h2, h3, h4⟩
          have hs : s ≠ start := by
            intro he
            rw [he] at h3
            exact hm h3
          exact ⟨by omega, by push_cast at h2 ⊢; omega, h3,
            fun u hu1 hu2 => h4 u (by omega) hu2⟩

theorem scanUp_eq_none (maxsub : Nat) (f : Int → Char) (cand : List Char) :
    ∀ (fuel : Nat) (start : Int),
    (scanUp maxsub f cand start fuel = none ↔
      ∀ u, start ≤ u → u < start + fuel → isMatch maxsub f u cand = false) := by
  intro fuel
  induction fuel with
  | zero =>
      intro start
      simp only [scanUp]
      constructor
      · intro _ u h1 h2; omega
      · intro _; trivial
  | succ n ih =>
      intro start
      simp only [scanUp]
      by_cases hm : isMatch maxsub f start cand = true
      · rw [if_pos hm]
        constructor
        · intro hc; exact absurd hc (by simp)
        · intro hall
          have := hall start (le_refl _) (by push_cast; omega)
          rw [this] at hm
          exact absurd hm (by simp)
      · rw [if_neg hm, ih (start + 1)]
        constructor
        · intro hall u h1 h2
          by_cases he : u = start
          · subst he
            cases hq : isMatch maxsub f u cand
            · rfl
            · exact absurd hq hm
          · exact hall u (by omega) (by push_cast at h2 ⊢; omega)
        · intro hall u h1 h2
          exact hall u (by omega) (by push_cast at h2 ⊢; omega)

theorem scanDown_eq_some (maxsub : Nat) (f : Int → Char) (cand : List Char) :
    ∀ (fuel : Nat) (start s : Int),
    (scanDown maxsub f cand start fuel = some s ↔
      (start - fuel < s ∧ s ≤ start ∧ isMatch maxsub f s cand = true ∧
        ∀ u, s < u → u ≤ start → isMatch maxsub f u cand = false)) := by
  intro fuel
  induction fuel with
  | zero =>
      intro start s
      simp only [scanDown]
      constructor
      · intro hc; exact absurd hc (by simp)
      · intro ⟨h1, h2, _⟩; push_cast at h1; omega
  | succ n ih =>
      intro start s
      simp only [scanDown]
      by_cases hm : isMatch maxsub f start cand = true
      · rw [if_pos hm]
        constructor
        · intro hc
          have hs : s = start := by
            have := Option.some.inj hc
            omega
          subst hs
          exact ⟨by push_cast; omega, le_refl _, hm, fun u h1 h2 => by omega⟩
        · intro ⟨h1, h2, h3, h4⟩
          by_cases he : s = start
          · subst he; rfl
          · have : isMatch maxsub f start cand = false :=
              h4 start (by omega) (le_refl _)
            rw [this] at hm
            exact absurd hm (by simp)
      · rw [if_neg hm]
        rw [ih (start - 1) s]
        constructor
        · intro ⟨h1, h2, h3, h4⟩
          refine ⟨by push_cast at h1 ⊢; omega, by omega, h3, ?_⟩
          intro u hu1 hu2
          by_cases he : u = start
          · subst he
            cases hq : isMatch maxsub f u cand
            · rfl
            · exact absurd hq hm
          · exact h4 u hu1 (by omega)
        · intro ⟨h1, h2, h3, h4⟩
          have hs : s ≠ start := by
            intro he
            rw [he] at h3
            exact hm h3
          exact ⟨by push_cast at h1 ⊢; omega, by omega, h3,
            fun u hu1 hu2 => h4 u hu1 (by omega)⟩

theorem scanDown_eq_none (maxsub : Nat) (f : Int → Char) (cand : List Char) :
    ∀ (fuel : Nat) (start : Int),
    (scanDown maxsub f cand start fuel = none ↔
      ∀ u, start - fuel < u → u ≤ start → isMatch maxsub f u cand = false) := by
  intro fuel
  induction fuel with
  | zero =>
      intro start
      simp only [scanDown]
      constructor
      · intro _ u h1 h2; push_cast at h1; omega
      · intro _; trivial
  | succ n ih =>
      intro start
      simp only [scanDown]
      by_cases hm : isMatch maxsub f start cand = true
      · rw [if_pos hm]
        constructor
        · intro hc; exact absurd hc (by simp)
        · intro hall
          have := hall start (by push_cast; omega) (le_refl _)
          rw [this] at hm
          exact absurd hm (by simp)
      · rw [if_neg hm, ih (start - 1)]
        constructor
        · intro hall u h1 h2
          by_cases he : u = start
          · subst he
            cases hq : isMatch maxsub f u cand
            · rfl
            · exact absurd hq hm
          · exact hall u (by push_cast at h1 ⊢; omega) (by omega)
        · intro hall u h1 h2
          exact hall u (by push_cast at h1 ⊢; omega) (by omega)

/-! ### Degenerate search windows -/

theorem findLeftmostGo_degenerate (maxsub : Nat) (f : Int → Char) :
    ∀ (cands : List (List Char)) (i : Nat) (bound : Int)
      (acc : Option (Nat × Int)),
    (∀ c ∈ cands, bound < (c.length : Int)) →
    findLeftmostGo maxsub f cands i bound acc = acc := by
  intro cands
  induction cands with
  | nil => intro i bound acc _; rfl
  | cons cand rest ih =>
      intro i bound acc hall
      have hlt : bound < (cand.length : Int) := hall cand (by simp)
      have hfuel : (bound - (cand.length : Int) + 1).toNat = 0 := by omega
      simp only [findLeftmostGo, hfuel]
      show findLeftmostGo maxsub f rest (i + 1) bound acc = acc
      exact ih (i + 1) bound acc (fun c hc => hall c (by simp [hc]))

theorem findRightmostGo_degenerate (maxsub : Nat) (f : Int → Char)
    (readseqlen : Nat) :
    ∀ (cands : List (List Char)) (i : Nat) (lastMatchStart : Int)
      (acc : Option (Nat × Int)),
    (∀ c ∈ cands, (readseqlen : Int) - (c.length : Int) < lastMatchStart) →
    findRightmostGo maxsub f readseqlen cands i lastMatchStart acc = acc := by
  intro cands
  induction cands with
  | nil => intro i lms acc _; rfl
  | cons cand rest ih =>
      intro i lms acc hall
      have hlt : (readseqlen : Int) - (cand.length : Int) < lms :=
        hall cand (by simp)
      have hfuel : ((readseqlen : Int) - (cand.length : Int) - lms + 1).toNat = 0 := by
        omega
      simp only [findRightmostGo, hfuel]
      show findRightmostGo maxsub f readseqlen rest (i + 1) lms acc = acc
      exact ih (i + 1) lms acc (fun c hc => hall c (by simp [hc]))

/-- C4: a degenerate search window — in particular a read too short for every
candidate, or a reserve leaving less room than any candidate's length — makes
both searches return not-found; the searches are total functions, so no
per-read error exists. -/
theorem find_degenerate_not_found (maxsub : Nat) (f : Int → Char)
    (readseqlen : Nat) (rightpad leftpad : Int) (t : Target) :
    ((∀ c ∈ t.seq, (readseqlen : Int) - rightpad < (c.length : Int)) →
      findLeftmost maxsub f readseqlen rightpad t = none) ∧
    ((∀ c ∈ t.seq, (readseqlen : Int) - (c.length : Int) < leftpad) →
      findRightmost maxsub f readseqlen leftpad t = none) :=
  ⟨fun h => findLeftmostGo_degenerate maxsub f t.seq 0 _ none h,
   fun h => findRightmostGo_degenerate maxsub f readseqlen t.seq 0 _ none h⟩

/-- Closed instance of `find_degenerate_not_found`: a read of length 5 is too
short for an 8-base candidate, and both searches report not-found. -/
theorem find_degenerate_not_found_witness :
    findLeftmost 2 (fun _ => 'A') 5 0 ⟨true, [List.replicate 8 'A']⟩ = none ∧
    findRightmost 2 (fun _ => 'A') 5 0 ⟨true, [List.replicate 8 'A']⟩ = none :=
  ⟨(find_degenerate_not_found 2 (fun _ => 'A') 5 0 0
      ⟨true, [List.replicate 8 'A']⟩).1 (by intro c hc; simp at hc; subst hc; simp),
   (find_degenerate_not_found 2 (fun _ => 'A') 5 0 0
      ⟨true, [List.replicate 8 'A']⟩).2 (by intro c hc; simp at hc; subst hc; simp)⟩

/-- C1: the single short-circuiting Boolean expression of
`TargetPair::findMatch` is equivalent to the spec's two-branch decision:
exactly one branch is evaluated, selected by the left set's polarity, with
the reserve and boundary choices as specified. -/
theorem findMatch_eq_two_branch (maxsub : Nat) (tp : TargetPair)
    (f : Int → Char) (readseqlen : Nat) :
    findMatchPred maxsub tp f readseqlen = findMatchSpec maxsub tp f readseqlen := by
  unfold findMatchPred findMatchSpec
  cases h : tp.left.want <;> simp [h]

/-! ### Single-candidate searches -/

theorem findLeftmost_single (maxsub : Nat) (f : Int → Char) (n : Nat)
    (rp : Int) (w : Bool) (c : List Char) :
    findLeftmost maxsub f n rp ⟨w, [c]⟩ =
      (scanUp maxsub f c 0 ((n : Int) - rp - (c.length : Int) + 1).toNat).map
        (fun s => (0, s)) := by
  simp only [findLeftmost, findLeftmostGo]
  cases h : scanUp maxsub f c 0 ((n : Int) - rp - (c.length : Int) + 1).toNat with
  | none => simp [h, findLeftmostGo]
  | some s => simp [h, findLeftmostGo]

theorem findRightmost_single (maxsub : Nat) (f : Int → Char) (n : Nat)
    (lp : Int) (w : Bool) (c : List Char) :
    findRightmost maxsub f n lp ⟨w, [c]⟩ =
      (scanDown maxsub f c ((n : Int) - (c.length : Int))
        ((n : Int) - (c.length : Int) - lp + 1).toNat).map (fun s => (0, s)) := by
  simp only [findRightmost, findRightmostGo]
  cases h : scanDown maxsub f c ((n : Int) - (c.length : Int))
      ((n : Int) - (c.length : Int) - lp + 1).toNat with
  | none => simp [h, findRightmostGo]
  | some s => simp [h, findRightmostGo]

/-- C8: on a read containing exactly two non-overlapping in-bound occurrences
of a single-candidate set's candidate, the leftmost search with zero reserve
returns the left occurrence's start and the rightmost search returns the
right occurrence's start. -/
theorem two_occurrence_search (maxsub : Nat) (f : Int → Char) (n : Nat)
    (w : Bool) (c : List Char) (p1 p2 : Int)
    (hL : 0 < c.length)
    (hp1 : 0 ≤ p1)
    (h12 : p1 + (c.length : Int) ≤ p2)
    (h2n : p2 + (c.length : Int) ≤ (n : Int))
    (hm1 : isMatch maxsub f p1 c = true)
    (hm2 : isMatch maxsub f p2 c = true)
    (honly : ∀ s : Int, 0 ≤ s → s + (c.length : Int) ≤ (n : Int) →
      isMatch maxsub f s c = true → s = p1 ∨ s = p2) :
    findLeftmost maxsub f n 0 ⟨w, [c]⟩ = some (0, p1) ∧
    findRightmost maxsub f n 0 ⟨w, [c]⟩ = some (0, p2) := by
  have hfuel : (((n : Int) - 0 - (c.length : Int) + 1).toNat : Int) =
      (n : Int) - (c.length : Int) + 1 := by omega
  constructor
  · rw [findLeftmost_single]
    have hscan : scanUp maxsub f c 0
        ((n : Int) - 0 - (c.length : Int) + 1).toNat = some p1 := by
      rw [scanUp_eq_some]
      refine ⟨hp1, by omega, hm1, ?_⟩
      intro u hu1 hu2
      cases hq : isMatch maxsub f u c with
      | false => rfl
      | true =>
          have := honly u hu1 (by omega) hq
          omega
    rw [hscan]
    rfl
  · rw [findRightmost_single]
    have hfuel2 : (((n : Int) - (c.length : Int) - 0 + 1).toNat : Int) =
        (n : Int) - (c.length : Int) + 1 := by omega
    have hscan : scanDown maxsub f c ((n : Int) - (c.length : Int))
        ((n : Int) - (c.length : Int) - 0 + 1).toNat = some p2 := by
      rw [scanDown_eq_some]
      refine ⟨by omega, by omega, hm2, ?_⟩
      intro u hu1 hu2
      cases hq : isMatch maxsub f u c with
      | false => rfl
      | true =>
          have := honly u (by omega) (by omega) hq
          omega
    rw [hscan]
    rfl

/-- Closed instance of `two_occurrence_search`: read of 8 A bases, 4 C bases,
8 A bases; the candidate of 8 A bases occurs exactly at offsets 0 and 12. -/
theorem two_occurrence_search_witness :
    findLeftmost 0
      (charAt (List.replicate 8 'A' ++ List.replicate 4 'C' ++
        List.replicate 8 'A')) 20 0 ⟨true, [List.replicate 8 'A']⟩ =
      some (0, 0) ∧
    findRightmost 0
      (charAt (List.replicate 8 'A' ++ List.replicate 4 'C' ++
        List.replicate 8 'A')) 20 0 ⟨true, [List.replicate 8 'A']⟩ =
      some (0, 12) := by
  refine two_occurrence_search 0
    (charAt (List.replicate 8 'A' ++ List.replicate 4 'C' ++
      List.replicate 8 'A')) 20 true (List.replicate 8 'A') 0 12
    (by decide) (by decide) (by decide) (by decide) (by decide) (by decide) ?_
  intro s h1 h2 hm
  have h2b : s ≤ 12 := by simp at h2; omega
  interval_cases s <;>
    first
      | (left; rfl)
      | (right; rfl)
      | (exact absurd hm (by decide))

/-! ### Helper lemmas about list indexing -/

theorem getD_drop_cons {α : Type} (d : α) :
    ∀ (l : List α) (k : Nat) (c : α) (r : List α),
    l.drop k = c :: r → l.getD k d = c
  | [], k, c, r => by intro h; simp at h
  | x :: xs, 0, c, r => by
      intro h
      simp at h
      simp [h.1]
  | x :: xs, k + 1, c, r => by
      intro h
      simp only [List.drop] at h
      simpa using getD_drop_cons d xs k c r h

theorem drop_succ_of_drop_cons {α : Type} :
    ∀ (l : List α) (k : Nat) (c : α) (r : List α),
    l.drop k = c :: r → l.drop (k + 1) = r
  | [], k, c, r => by intro h; simp at h
  | x :: xs, 0, c, r => by
      intro h
      simp at h
      simp [h.2]
  | x :: xs, k + 1, c, r => by
      intro h
      simp only [List.drop] at h
      simpa using drop_succ_of_drop_cons xs k c r h

theorem lt_length_of_drop_cons {α : Type} (l : List α) (k : Nat) (c : α)
    (r : List α) (h : l.drop k = c :: r) : k < l.length := by
  have h1 : (l.drop k).length = r.length + 1 := by rw [h]; rfl
  rw [List.length_drop] at h1
  omega

/-! ### Minimal-end invariant of the leftmost search -/

theorem findLeftmostGo_minimal (maxsub : Nat) (f : Int → Char)
    (all : List (List Char)) (B0 : Int) :
    ∀ (rest : List (List Char)) (k : Nat) (bound : Int)
      (acc : Option (Nat × Int)),
    all.drop k = rest →
    (∀ i s, acc = some (i, s) → i < k ∧ i < all.length ∧ 0 ≤ s ∧
       isMatch maxsub f s (all.getD i []) = true ∧
       s + ((all.getD i []).length : Int) ≤ B0 ∧
       bound = s + ((all.getD i []).length : Int) - 1) →
    (acc = none → bound = B0) →
    (∀ j s2, j < k → 0 ≤ s2 → s2 + ((all.getD j []).length : Int) ≤ B0 →
       isMatch maxsub f s2 (all.getD j []) = true →
       ∃ i s, acc = some (i, s) ∧
         s + ((all.getD i []).length : Int) ≤
           s2 + ((all.getD j []).length : Int)) →
    ((∀ i s, findLeftmostGo maxsub f rest k bound acc = some (i, s) →
        i < all.length ∧ 0 ≤ s ∧
        isMatch maxsub f s (all.getD i []) = true ∧
        s + ((all.getD i []).length : Int) ≤ B0 ∧
        ∀ j s2, j < all.length → 0 ≤ s2 →
          s2 + ((all.getD j []).length : Int) ≤ B0 →
          isMatch maxsub f s2 (all.getD j []) = true →
          s + ((all.getD i []).length : Int) ≤
            s2 + ((all.getD j []).length : Int)) ∧
     (findLeftmostGo maxsub f rest k bound acc = none →
        ∀ j s2, j < all.length → 0 ≤ s2 →
          s2 + ((all.getD j []).length : Int) ≤ B0 →
          isMatch maxsub f s2 (all.getD j []) = false)) := by
  intro rest
  induction rest with
  | nil =>
      intro k bound acc hdrop H1 H2 H3
      have hklen : all.length ≤ k := by
        have := List.length_drop k all
        rw [hdrop] at this
        simp at this
        omega
      constructor
      · intro i s hres
        simp only [findLeftmostGo] at hres
        obtain ⟨hik, hilen, hs0, hm, hend, _⟩ := H1 i s hres
        refine ⟨hilen, hs0, hm, hend, ?_⟩
        intro j s2 hj hs2 hend2 hm2
        obtain ⟨i2, s3, hacc, hle⟩ := H3 j s2 (by omega) hs2 hend2 hm2
        rw [hres] at hacc
        have hpair := Option.some.inj hacc
        rw [Prod.mk.injEq] at hpair
        rw [hpair.1, hpair.2]
        exact hle
      · intro hres j s2 hj hs2 hend2
        simp only [findLeftmostGo] at hres
        cases hq : isMatch maxsub f s2 (all.getD j []) with
        | false => rfl
        | true =>
            obtain ⟨i2, s3, hacc, _⟩ := H3 j s2 (by omega) hs2 hend2 hq
            rw [hres] at hacc
            exact absurd hacc (by simp)
  | cons cand rest2 ih =>
      intro k bound acc hdrop H1 H2 H3
      have hget : all.getD k [] = cand := getD_drop_cons [] all k cand rest2 hdrop
      have hklen : k < all.length := lt_length_of_drop_cons all k cand rest2 hdrop
      have hdrop2 : all.drop (k + 1) = rest2 :=
        drop_succ_of_drop_cons all k cand rest2 hdrop
      have hboundB0 : bound ≤ B0 := by
        cases hacc : acc with
        | none => rw [H2 hacc]
        | some p =>
            obtain ⟨i0, s0⟩ := p
            obtain ⟨_, _, _, _, hend, hb⟩ := H1 i0 s0 hacc
            omega
      simp only [findLeftmostGo]
      cases hscan : scanUp maxsub f cand 0 (bound - (cand.length : Int) + 1).toNat with
      | some s =>
          obtain ⟨hs0, hsfuel, hsm, hsleft⟩ :=
            (scanUp_eq_some maxsub f cand _ 0 s).mp hscan
          have hfuelpos : 0 < (bound - (cand.length : Int) + 1).toNat := by
            by_contra hc
            push_neg at hc
            interval_cases h : (bound - (cand.length : Int) + 1).toNat
            omega
          have hsend : s + (cand.length : Int) ≤ bound := by omega
          refine ih (k + 1) (s + (cand.length : Int) - 1) (some (k, s)) hdrop2
            ?_ ?_ ?_
          · intro i2 s2 hacc2
            have hpair := Option.some.inj hacc2
            rw [Prod.mk.injEq] at hpair
            rw [← hpair.1, ← hpair.2, hget]
            exact ⟨by omega, hklen, hs0, hsm, by omega, rfl⟩
          · intro hacc2
            exact absurd hacc2 (by simp)
          · intro j s2 hj hs2 hend2 hm2
            refine ⟨k, s, rfl, ?_⟩
            rw [hget]
            by_cases hjk : j = k
            · subst hjk
              by_cases hwin : s2 + ((all.getD j []).length : Int) ≤ bound
              · have hs2lt : s2 < 0 + ((bound - (cand.length : Int) + 1).toNat : Int) := by
                  rw [hget] at hwin
                  omega
                by_cases hs2s : s2 < s
                · have := hsleft s2 hs2 hs2s
                  rw [hget] at hm2
                  rw [this] at hm2
                  exact absurd hm2 (by simp)
                · rw [hget]
                  omega
              · rw [hget] at hwin ⊢
                omega
            · obtain ⟨i0, s0, hacc0, hle0⟩ := H3 j s2 (by omega) hs2 hend2 hm2
              obtain ⟨_, _, _, _, hend0, hb0⟩ := H1 i0 s0 hacc0
              omega
      | none =>
          have hnone :=
            (scanUp_eq_none maxsub f cand _ 0).mp hscan
          refine ih (k + 1) bound acc hdrop2 ?_ H2 ?_
          · intro i2 s2 hacc2
            obtain ⟨h1, h2, h3, h4, h5, h6⟩ := H1 i2 s2 hacc2
            exact ⟨by omega, h2, h3, h4, h5, h6⟩
          · intro j s2 hj hs2 hend2 hm2
            by_cases hjk : j = k
            · subst hjk
              by_cases hwin : s2 + ((all.getD j []).length : Int) ≤ bound
              · have hs2lt : s2 < 0 + ((bound - (cand.length : Int) + 1).toNat : Int) := by
                  rw [hget] at hwin
                  omega
                have := hnone s2 hs2 hs2lt
                rw [hget] at hm2
                rw [this] at hm2
                exact absurd hm2 (by simp)
              · cases hacc : acc with
                | none =>
                    rw [H2 hacc] at hwin
                    exact absurd hend2 hwin
                | some p =>
                    obtain ⟨i0, s0⟩ := p
                    obtain ⟨_, _, _, _, hend0, hb0⟩ := H1 i0 s0 hacc
                    exact ⟨i0, s0, rfl, by omega⟩
            · exact H3 j s2 (by omega) hs2 hend2 hm2

/-- C2 (amended): the leftmost search processes candidates in stored order,
records the first matching start per candidate, and tightens the window so a
future occurrence must end strictly before the recorded match's end (not its
start); consequently a returned match is an in-window occurrence whose end
position is minimal over all in-window occurrences of all candidates, and a
none result means no in-window occurrence exists. -/
theorem findLeftmost_minimal_end (maxsub : Nat) (f : Int → Char) (n : Nat)
    (rp : Int) (t : Target) :
    (∀ i s, findLeftmost maxsub f n rp t = some (i, s) →
       i < t.seq.length ∧ 0 ≤ s ∧ isMatch maxsub f s (seqAt t i) = true ∧
       s + (seqlenAt t i : Int) ≤ (n : Int) - rp ∧
       ∀ j s2, j < t.seq.length → 0 ≤ s2 →
         s2 + (seqlenAt t j : Int) ≤ (n : Int) - rp →
         isMatch maxsub f s2 (seqAt t j) = true →
         s + (seqlenAt t i : Int) ≤ s2 + (seqlenAt t j : Int)) ∧
    (findLeftmost maxsub f n rp t = none →
       ∀ j s2, j < t.seq.length → 0 ≤ s2 →
         s2 + (seqlenAt t j : Int) ≤ (n : Int) - rp →
         isMatch maxsub f s2 (seqAt t j) = false) := by
  have main := findLeftmostGo_minimal maxsub f t.seq ((n : Int) - rp) t.seq 0
    ((n : Int) - rp) none rfl
    (fun i s h => absurd h (by simp))
    (fun _ => rfl)
    (fun j s2 hj _ _ _ => absurd hj (by omega))
  simp only [seqAt, seqlenAt, findLeftmost]
  exact main

/-- C2 counterexample: with candidates of lengths 10 and 8 and a read of ten
A bases, the code records candidate 1 at start 0 even though its occurrence
ends at 8, which is not strictly before the previously recorded match's
start 0; the claim's tightening rule would return candidate 0 instead, so
the claim as stated disagrees with the code at this input. -/
theorem findLeftmost_claim_counterexample :
    findLeftmost 0 (charAt (List.replicate 10 'A')) 10 0
      ⟨true, [List.replicate 10 'A', List.replicate 8 'A']⟩ = some (1, 0) ∧
    findLeftmostClaim 0 (charAt (List.replicate 10 'A')) 10 0
      ⟨true, [List.replicate 10 'A', List.replicate 8 'A']⟩ = some (0, 0) ∧
    findLeftmost 0 (charAt (List.replicate 10 'A')) 10 0
      ⟨true, [List.replicate 10 'A', List.replicate 8 'A']⟩ ≠
      findLeftmostClaim 0 (charAt (List.replicate 10 'A')) 10 0
        ⟨true, [List.replicate 10 'A', List.replicate 8 'A']⟩ := by
  refine ⟨?_, ?_, ?_⟩ <;> decide

/-- Closed instance of `findLeftmost_minimal_end` at a concrete input. -/
theorem findLeftmost_minimal_end_witness :
    isMatch 0 (charAt (List.replicate 10 'A')) 0
      (seqAt ⟨true, [List.replicate 10 'A', List.replicate 8 'A']⟩ 1) = true :=
  ((findLeftmost_minimal_end 0 (charAt (List.replicate 10 'A')) 10 0
      ⟨true, [List.replicate 10 'A', List.replicate 8 'A']⟩).1 1 0
    (by decide)).2.2.1

/-! ### The searches read only in-range positions of the buffer -/

theorem isMatchGo_congr (maxsub : Nat) (f g : Int → Char) :
    ∀ (target : List Char) (start : Int) (numsubs : Nat),
    (∀ u, start ≤ u → u < start + (target.length : Int) → f u = g u) →
    isMatchGo maxsub f start target numsubs =
      isMatchGo maxsub g start target numsubs := by
  intro target
  induction target with
  | nil => intro start n _; rfl
  | cons t ts ih =>
      intro start n hfg
      have h0 : f start = g start :=
        hfg start (le_refl _) (by push_cast [List.length_cons]; omega)
      have hrest : ∀ u, start + 1 ≤ u → u < start + 1 + (ts.length : Int) →
          f u = g u := by
        intro u h1 h2
        refine hfg u (by omega) ?_
        push_cast [List.length_cons]
        omega
      simp only [isMatchGo, h0]
      by_cases h : g start = t
      · have hno : ¬(g start ≠ t) := fun hc => hc h
        rw [if_neg hno, if_neg hno]
        exact ih (start + 1) n hrest
      · rw [if_pos h, if_pos h]
        by_cases h2 : n + 1 > maxsub
        · rw [if_pos h2, if_pos h2]
        · rw [if_neg h2, if_neg h2]
          exact ih (start + 1) (n + 1) hrest

theorem isMatch_congr (maxsub : Nat) (f g : Int → Char) (target : List Char)
    (start : Int)
    (hfg : ∀ u, start ≤ u → u < start + (target.length : Int) → f u = g u) :
    isMatch maxsub f start target = isMatch maxsub g start target :=
  isMatchGo_congr maxsub f g target start 0 hfg

theorem scanUp_congr (maxsub : Nat) (f g : Int → Char) (cand : List Char) :
    ∀ (fuel : Nat) (start : Int),
    (∀ u, start ≤ u → u < start + fuel + (cand.length : Int) - 1 → f u = g u) →
    scanUp maxsub f cand start fuel = scanUp maxsub g cand start fuel := by
  intro fuel
  induction fuel with
  | zero => intro start _; rfl
  | succ m ih =>
      intro start hfg
      have hm : isMatch maxsub f start cand = isMatch maxsub g start cand :=
        isMatch_congr maxsub f g cand start
          (fun u h1 h2 => hfg u h1 (by push_cast at h2 ⊢; omega))
      simp only [scanUp, hm]
      by_cases h : isMatch maxsub g start cand = true
      · rw [if_pos h, if_pos h]
      · rw [if_neg h, if_neg h]
        exact ih (start + 1)
          (fun u h1 h2 => hfg u (by omega) (by push_cast at h2 ⊢; omega))

theorem scanDown_congr (maxsub : Nat) (f g : Int → Char) (cand : List Char) :
    ∀ (fuel : Nat) (start : Int),
    (∀ u, start - fuel < u → u < start + (cand.length : Int) → f u = g u) →
    scanDown maxsub f cand start fuel = scanDown maxsub g cand start fuel := by
  intro fuel
  induction fuel with
  | zero => intro start _; rfl
  | succ m ih =>
      intro start hfg
      have hm : isMatch maxsub f start cand = isMatch maxsub g start cand :=
        isMatch_congr maxsub f g cand start
          (fun u h1 h2 => hfg u (by push_cast; omega) h2)
      simp only [scanDown, hm]
      by_cases h : isMatch maxsub g start cand = true
      · rw [if_pos h, if_pos h]
      · rw [if_neg h, if_neg h]
        exact ih (start - 1)
          (fun u h1 h2 => hfg u (by push_cast at h1 ⊢; omega) (by omega))

theorem findLeftmostGo_congr (maxsub : Nat) (f g : Int → Char) (n : Nat)
    (hfg : ∀ u, 0 ≤ u → u < (n : Int) → f u = g u) :
    ∀ (cands : List (List Char)) (k : Nat) (bound : Int)
      (acc : Option (Nat × Int)), bound ≤ (n : Int) →
    findLeftmostGo maxsub f cands k bound acc =
      findLeftmostGo maxsub g cands k bound acc := by
  intro cands
  induction cands with
  | nil => intro k bound acc _; rfl
  | cons cand rest ih =>
      intro k bound acc hbound
      by_cases hz : (bound - (cand.length : Int) + 1).toNat = 0
      · simp only [findLeftmostGo, hz]
        show findLeftmostGo maxsub f rest (k + 1) bound acc =
          findLeftmostGo maxsub g rest (k + 1) bound acc
        exact ih (k + 1) bound acc hbound
      · have hscan : scanUp maxsub f cand 0 (bound - (cand.length : Int) + 1).toNat =
            scanUp maxsub g cand 0 (bound - (cand.length : Int) + 1).toNat := by
          apply scanUp_congr
          intro u h1 h2
          exact hfg u h1 (by omega)
        simp only [findLeftmostGo, hscan]
        cases hres : scanUp maxsub g cand 0 (bound - (cand.length : Int) + 1).toNat with
        | none => exact ih (k + 1) bound acc hbound
        | some s =>
            obtain ⟨hs0, hsf, _, _⟩ := (scanUp_eq_some maxsub g cand _ 0 s).mp hres
            exact ih (k + 1) (s + (cand.length : Int) - 1) (some (k, s))
              (by omega)

theorem findRightmostGo_congr (maxsub : Nat) (f g : Int → Char) (n : Nat)
    (hfg : ∀ u, 0 ≤ u → u < (n : Int) → f u = g u) :
    ∀ (cands : List (List Char)) (k : Nat) (lms : Int)
      (acc : Option (Nat × Int)), 0 ≤ lms →
    findRightmostGo maxsub f n cands k lms acc =
      findRightmostGo maxsub g n cands k lms acc := by
  intro cands
  induction cands with
  | nil => intro k lms acc _; rfl
  | cons cand rest ih =>
      intro k lms acc hlms
      by_cases hz : ((n : Int) - (cand.length : Int) - lms + 1).toNat = 0
      · simp only [findRightmostGo, hz]
        show findRightmostGo maxsub f n rest (k + 1) lms acc =
          findRightmostGo maxsub g n rest (k + 1) lms acc
        exact ih (k + 1) lms acc hlms
      · have hscan : scanDown maxsub f cand ((n : Int) - (cand.length : Int))
            ((n : Int) - (cand.length : Int) - lms + 1).toNat =
            scanDown maxsub g cand ((n : Int) - (cand.length : Int))
              ((n : Int) - (cand.length : Int) - lms + 1).toNat := by
          apply scanDown_congr
          intro u h1 h2
          exact hfg u (by omega) (by omega)
        simp only [findRightmostGo, hscan]
        cases hres : scanDown maxsub g cand ((n : Int) - (cand.length : Int))
            ((n : Int) - (cand.length : Int) - lms + 1).toNat with
        | none => exact ih (k + 1) lms acc hlms
        | some s =>
            obtain ⟨hsf, hs1, _, _⟩ := (scanDown_eq_some maxsub g cand _ _ s).mp hres
            exact ih (k + 1) (s + 1) (some (k, s)) (by omega)

theorem findRightmostGo_sound (maxsub : Nat) (f : Int → Char) (n : Nat)
    (all : List (List Char)) (lp : Int) :
    ∀ (rest : List (List Char)) (k : Nat) (lms : Int)
      (acc : Option (Nat × Int)),
    all.drop k = rest → lp ≤ lms →
    (∀ i s, acc = some (i, s) → i < all.length ∧ lp ≤ s ∧
       s + ((all.getD i []).length : Int) ≤ (n : Int)) →
    ∀ i s, findRightmostGo maxsub f n rest k lms acc = some (i, s) →
      i < all.length ∧ lp ≤ s ∧
        s + ((all.getD i []).length : Int) ≤ (n : Int) := by
  intro rest
  induction rest with
  | nil =>
      intro k lms acc hdrop hlp hacc i s hres
      simp only [findRightmostGo] at hres
      exact hacc i s hres
  | cons cand rest2 ih =>
      intro k lms acc hdrop hlp hacc i s hres
      have hget := getD_drop_cons [] all k cand rest2 hdrop
      have hklen := lt_length_of_drop_cons all k cand rest2 hdrop
      have hdrop2 := drop_succ_of_drop_cons all k cand rest2 hdrop
      simp only [findRightmostGo] at hres
      cases hscan : scanDown maxsub f cand ((n : Int) - (cand.length : Int))
          ((n : Int) - (cand.length : Int) - lms + 1).toNat with
      | some s2 =>
          rw [hscan] at hres
          obtain ⟨hsf, hs1, _, _⟩ :=
            (scanDown_eq_some maxsub f cand _ _ s2).mp hscan
          refine ih (k + 1) (s2 + 1) (some (k, s2)) hdrop2 (by omega) ?_ i s hres
          intro i2 s3 hacc2
          have hpair := Option.some.inj hacc2
          rw [Prod.mk.injEq] at hpair
          rw [← hpair.1, ← hpair.2, hget]
          exact ⟨hklen, by omega, by omega⟩
      | none =>
          rw [hscan] at hres
          exact ih (k + 1) lms acc hdrop2 hlp hacc i s hres

theorem findLeftmost_sound (maxsub : Nat) (f : Int → Char) (n : Nat)
    (rp : Int) (t : Target) :
    ∀ i s, findLeftmost maxsub f n rp t = some (i, s) →
      i < t.seq.length ∧ 0 ≤ s ∧ s + (seqlenAt t i : Int) ≤ (n : Int) - rp := by
  intro i s hres
  have main := (findLeftmostGo_minimal maxsub f t.seq ((n : Int) - rp) t.seq 0
    ((n : Int) - rp) none rfl (fun i2 s2 h => absurd h (by simp)) (fun _ => rfl)
    (fun j s2 hj _ _ _ => absurd hj (by omega))).1 i s hres
  exact ⟨main.1, main.2.1, main.2.2.2.1⟩

theorem findRightmost_sound (maxsub : Nat) (f : Int → Char) (n : Nat)
    (lp : Int) (t : Target) :
    ∀ i s, findRightmost maxsub f n lp t = some (i, s) →
      i < t.seq.length ∧ lp ≤ s ∧ s + (seqlenAt t i : Int) ≤ (n : Int) :=
  fun i s hres =>
    findRightmostGo_sound maxsub f n t.seq lp t.seq 0 lp none rfl (le_refl _)
      (fun i2 s2 h => absurd h (by simp)) i s hres

theorem findMatchPred_congr (maxsub : Nat) (tp : TargetPair) (f g : Int → Char)
    (n : Nat) (hfg : ∀ u, 0 ≤ u → u < (n : Int) → f u = g u) :
    findMatchPred maxsub tp f n = findMatchPred maxsub tp g n := by
  have hrp0 : (0 : Int) ≤
      (if tp.right.want then (tp.right.minseqlen : Int)
       else (tp.right.maxseqlen : Int)) := by
    cases tp.right.want <;> simp
  have hL1 : findLeftmost maxsub f n
      (if tp.right.want then (tp.right.minseqlen : Int)
       else (tp.right.maxseqlen : Int)) tp.left =
      findLeftmost maxsub g n
        (if tp.right.want then (tp.right.minseqlen : Int)
         else (tp.right.maxseqlen : Int)) tp.left := by
    unfold findLeftmost
    exact findLeftmostGo_congr maxsub f g n hfg tp.left.seq 0 _ none (by omega)
  have hR2 : findRightmost maxsub f n (tp.left.maxseqlen : Int) tp.right =
      findRightmost maxsub g n (tp.left.maxseqlen : Int) tp.right := by
    unfold findRightmost
    exact findRightmostGo_congr maxsub f g n hfg tp.right.seq 0 _ none
      (by positivity)
  unfold findMatchPred
  rw [hL1, hR2]
  congr 1
  · congr 1
    cases hres : findLeftmost maxsub g n
        (if tp.right.want then (tp.right.minseqlen : Int)
         else (tp.right.maxseqlen : Int)) tp.left with
    | none => rfl
    | some p =>
        obtain ⟨li, ls⟩ := p
        have hls : 0 ≤ ls :=
          (findLeftmost_sound maxsub g n _ tp.left li ls hres).2.1
        have hR1 : findRightmost maxsub f n
            (ls + (seqlenAt tp.left li : Int)) tp.right =
            findRightmost maxsub g n
              (ls + (seqlenAt tp.left li : Int)) tp.right := by
          unfold findRightmost
          refine findRightmostGo_congr maxsub f g n hfg tp.right.seq 0 _ none ?_
          have : (0 : Int) ≤ (seqlenAt tp.left li : Int) := by positivity
          omega
        show ((findRightmost maxsub f n (ls + (seqlenAt tp.left li : Int))
            tp.right).isSome == tp.right.want) =
          ((findRightmost maxsub g n (ls + (seqlenAt tp.left li : Int))
            tp.right).isSome == tp.right.want)
        rw [hR1]
  · congr 1
    cases hres2 : findRightmost maxsub g n (tp.left.maxseqlen : Int)
        tp.right with
    | none => rfl
    | some q =>
        obtain ⟨ri, rs⟩ := q
        have hrs :=
          (findRightmost_sound maxsub g n _ tp.right ri rs hres2).2.2
        have hL2 : findLeftmost maxsub f n ((n : Int) - rs) tp.left =
            findLeftmost maxsub g n ((n : Int) - rs) tp.left := by
          unfold findLeftmost
          refine findLeftmostGo_congr maxsub f g n hfg tp.left.seq 0 _ none ?_
          have : (0 : Int) ≤ (seqlenAt tp.right ri : Int) := by positivity
          omega
        show (!(findLeftmost maxsub f n ((n : Int) - rs) tp.left).isSome) =
          (!(findLeftmost maxsub g n ((n : Int) - rs) tp.left).isSome)
        rw [hL2]

/-- C10: the searches and the pair predicate depend only on read positions
inside `[0, readseqlen)` — replacing the buffer by any function agreeing on
that range leaves the results unchanged, so no out-of-range position is ever
consulted — and a successful search reports a match lying entirely inside
the read: `0 ≤ matchStart` and `matchStart + seqlen[matchIndex] ≤ readseqlen`
(the rightmost search additionally keeps `leftpad ≤ matchStart`). -/
theorem search_memory_safety (maxsub : Nat) (t : Target) (tp : TargetPair)
    (f g : Int → Char) (n : Nat) (rp lp : Int) :
    ((∀ u, 0 ≤ u → u < (n : Int) → f u = g u) → 0 ≤ rp →
       findLeftmost maxsub f n rp t = findLeftmost maxsub g n rp t) ∧
    ((∀ u, 0 ≤ u → u < (n : Int) → f u = g u) → 0 ≤ lp →
       findRightmost maxsub f n lp t = findRightmost maxsub g n lp t) ∧
    ((∀ u, 0 ≤ u → u < (n : Int) → f u = g u) →
       findMatchPred maxsub tp f n = findMatchPred maxsub tp g n) ∧
    (∀ i s, 0 ≤ rp → findLeftmost maxsub f n rp t = some (i, s) →
       0 ≤ s ∧ s + (seqlenAt t i : Int) ≤ (n : Int)) ∧
    (∀ i s, 0 ≤ lp → findRightmost maxsub f n lp t = some (i, s) →
       0 ≤ s ∧ lp ≤ s ∧ s + (seqlenAt t i : Int) ≤ (n : Int)) := by
  refine ⟨?_, ?_, ?_, ?_, ?_⟩
  · intro hfg hrp
    unfold findLeftmost
    exact findLeftmostGo_congr maxsub f g n hfg t.seq 0 _ none (by omega)
  · intro hfg hlp
    unfold findRightmost
    exact findRightmostGo_congr maxsub f g n hfg t.seq 0 _ none hlp
  · intro hfg
    exact findMatchPred_congr maxsub tp f g n hfg
  · intro i s hrp hres
    obtain ⟨_, h1, h2⟩ := findLeftmost_sound maxsub f n rp t i s hres
    exact ⟨h1, by omega⟩
  · intro i s hlp hres
    obtain ⟨_, h1, h2⟩ := findRightmost_sound maxsub f n lp t i s hres
    exact ⟨by omega, h1, h2⟩

/-- Closed instance of `search_memory_safety`: two buffers agreeing on the
first eight positions give the same pair decision. -/
theorem search_memory_safety_witness :
    findMatchPred 2
      ⟨['L'], ⟨true, [List.replicate 8 'A']⟩, ⟨false, [List.replicate 8 'C']⟩⟩
      (charAt (List.replicate 8 'A')) 8 =
    findMatchPred 2
      ⟨['L'], ⟨true, [List.replicate 8 'A']⟩, ⟨false, [List.replicate 8 'C']⟩⟩
      (fun i => if 0 ≤ i ∧ i < 8 then 'A' else 'G') 8 :=
  (search_memory_safety 2 ⟨true, [List.replicate 8 'A']⟩
      ⟨['L'], ⟨true, [List.replicate 8 'A']⟩, ⟨false, [List.replicate 8 'C']⟩⟩
      (charAt (List.replicate 8 'A'))
      (fun i => if 0 ≤ i ∧ i < 8 then 'A' else 'G') 8 0 0).2.2.1
    (by
      intro u h1 h2
      interval_cases u <;> decide)

/-! ### Construction and validation -/

theorem getDelimitedStrings_ne_nil (d : Char) :
    ∀ s, getDelimitedStrings d s ≠ []
  | [] => by simp [getDelimitedStrings]
  | c :: cs => by
      simp only [getDelimitedStrings]
      by_cases h : c = d
      · rw [if_pos h]
        simp
      · rw [if_neg h]
        cases hr : getDelimitedStrings d cs <;> simp

theorem minmaxLoop_fst_le_iff :
    ∀ (ls : List Nat) (mn mx k : Nat),
    (k ≤ (minmaxLoop ls mn mx).1 ↔ (k ≤ mn ∧ ∀ l ∈ ls, k ≤ l)) := by
  intro ls
  induction ls with
  | nil => intro mn mx k; simp [minmaxLoop]
  | cons l ls2 ih =>
      intro mn mx k
      simp only [minmaxLoop]
      by_cases h1 : l < mn
      · rw [if_pos h1, ih]
        constructor
        · rintro ⟨hk, hall⟩
          refine ⟨by omega, ?_⟩
          intro x hx
          rcases List.mem_cons.mp hx with he | hm
          · subst he; exact hk
          · exact hall x hm
        · rintro ⟨hk, hall⟩
          exact ⟨hall l (by simp), fun x hx => hall x (by simp [hx])⟩
      · rw [if_neg h1]
        have key : ∀ mx2 : Nat,
            (k ≤ (minmaxLoop ls2 mn mx2).1 ↔ (k ≤ mn ∧ ∀ x ∈ ls2, k ≤ x)) :=
          fun mx2 => ih mn mx2 k
        by_cases h2 : l > mx
        · rw [if_pos h2, key]
          constructor
          · rintro ⟨hk, hall⟩
            refine ⟨hk, ?_⟩
            intro x hx
            rcases List.mem_cons.mp hx with he | hm
            · subst he; omega
            · exact hall x hm
          · rintro ⟨hk, hall⟩
            exact ⟨hk, fun x hx => hall x (by simp [hx])⟩
        · rw [if_neg h2, key]
          constructor
          · rintro ⟨hk, hall⟩
            refine ⟨hk, ?_⟩
            intro x hx
            rcases List.mem_cons.mp hx with he | hm
            · subst he; omega
            · exact hall x hm
          · rintro ⟨hk, hall⟩
            exact ⟨hk, fun x hx => hall x (by simp [hx])⟩

theorem mkTarget_iff (ts : List Char) (t : Target) :
    mkTarget ts = some t ↔
      (t.want = targetWant ts ∧ t.seq = parsedCandidates ts ∧
       ∀ c ∈ parsedCandidates ts, 8 ≤ c.length ∧ isAllACGT c = true) := by
  obtain ⟨c0, cs, hsplit⟩ := List.exists_cons_of_ne_nil
    (getDelimitedStrings_ne_nil '|' (stripNeg (toupperSequence ts)))
  have hmin : (8 ≤ (minmaxLoop ((c0 :: cs).map List.length).tail
      (((c0 :: cs).map List.length).headD 0)
      (((c0 :: cs).map List.length).headD 0)).1 ↔
      ∀ c ∈ c0 :: cs, 8 ≤ c.length) := by
    rw [minmaxLoop_fst_le_iff]
    simp only [List.map_cons, List.tail_cons, List.headD_cons]
    constructor
    · rintro ⟨h1, h2⟩
      intro c hc
      rcases List.mem_cons.mp hc with he | hm
      · subst he; exact h1
      · exact h2 c.length (List.mem_map_of_mem List.length hm)
    · intro hall
      refine ⟨hall c0 (by simp), ?_⟩
      intro l hl
      obtain ⟨c, hc, hlen⟩ := List.mem_map.mp hl
      rw [← hlen]
      exact hall c (by simp [hc])
  simp only [mkTarget, targetWant, parsedCandidates]
  rw [hsplit]
  by_cases h8 : ∀ c ∈ c0 :: cs, 8 ≤ c.length
  · have hno8 : ¬((minmaxLoop ((c0 :: cs).map List.length).tail
        (((c0 :: cs).map List.length).headD 0)
        (((c0 :: cs).map List.length).headD 0)).1 < 8) := by
      rw [Nat.not_lt]
      exact hmin.mpr h8
    rw [if_neg hno8]
    by_cases hall : (c0 :: cs).any (fun c => !(isAllACGT c)) = true
    · rw [if_pos hall]
      obtain ⟨c, hc, hacgt⟩ := List.any_eq_true.mp hall
      constructor
      · intro hc2; exact absurd hc2 (by simp)
      · rintro ⟨_, _, hprops⟩
        have h2 := (hprops c hc).2
        rw [h2] at hacgt
        simp at hacgt
    · rw [if_neg hall]
      have hACGT : ∀ c ∈ c0 :: cs, isAllACGT c = true := by
        intro c hc
        cases hq : isAllACGT c with
        | true => rfl
        | false =>
            exact absurd (List.any_eq_true.mpr ⟨c, hc, by simp [hq]⟩) hall
      constructor
      · intro he
        have ht := Option.some.inj he
        rw [← ht]
        exact ⟨rfl, rfl, fun c hc => ⟨h8 c hc, hACGT c hc⟩⟩
      · rintro ⟨hw, hs, _⟩
        obtain ⟨tw, tseq⟩ := t
        simp only at hw hs
        rw [hw, hs]
  · have hyes8 : (minmaxLoop ((c0 :: cs).map List.length).tail
        (((c0 :: cs).map List.length).headD 0)
        (((c0 :: cs).map List.length).headD 0)).1 < 8 := by
      by_contra hc
      rw [Nat.not_lt] at hc
      exact h8 (hmin.mp hc)
    rw [if_pos hyes8]
    constructor
    · intro hc2; exact absurd hc2 (by simp)
    · rintro ⟨_, _, hprops⟩
      exact absurd (fun c hc => (hprops c hc).1) h8

theorem mkTargetPair_iff (a b c : List Char) (tp : TargetPair) :
    mkTargetPair a b c = some tp ↔
      (mkTarget b = some tp.left ∧ mkTarget c = some tp.right ∧
       tp.label = a ∧ a ≠ [] ∧
       (tp.left.want = true ∨ tp.right.want = true)) := by
  unfold mkTargetPair
  cases hb : mkTarget b with
  | none =>
      constructor
      · intro hc2; exact absurd hc2 (by simp)
      · rintro ⟨hl, _⟩; exact absurd hl (by simp)
  | some l =>
      cases hc : mkTarget c with
      | none =>
          constructor
          · intro hc2; exact absurd hc2 (by simp)
          · rintro ⟨_, hr, _⟩; exact absurd hr (by simp)
      | some r =>
          show (if a = [] then none
                else if (!l.want) = true ∧ (!r.want) = true then none
                else some ⟨a, l, r⟩) = some tp ↔ _
          by_cases ha : a = []
          · rw [if_pos ha]
            constructor
            · intro hc2; exact absurd hc2 (by simp)
            · rintro ⟨_, _, _, hne, _⟩; exact absurd ha hne
          · rw [if_neg ha]
            by_cases hw : (!l.want) = true ∧ (!r.want) = true
            · rw [if_pos hw]
              obtain ⟨hw1, hw2⟩ := hw
              rw [Bool.not_eq_true'] at hw1 hw2
              constructor
              · intro hc2; exact absurd hc2 (by simp)
              · rintro ⟨hl, hr, _, _, hdisj⟩
                have hleq : l = tp.left := Option.some.inj hl
                have hreq : r = tp.right := Option.some.inj hr
                rw [← hleq, ← hreq] at hdisj
                rcases hdisj with hd | hd
                · rw [hw1] at hd; exact absurd hd (by simp)
                · rw [hw2] at hd; exact absurd hd (by simp)
            · rw [if_neg hw]
              have hdisj : l.want = true ∨ r.want = true := by
                cases hql : l.want with
                | true => exact Or.inl rfl
                | false =>
                    cases hqr : r.want with
                    | true => exact Or.inr rfl
                    | false =>
                        exact absurd ⟨by simp [hql], by simp [hqr]⟩ hw
              constructor
              · intro he
                have ht := Option.some.inj he
                rw [← ht]
                exact ⟨rfl, rfl, rfl, ha, hdisj⟩
              · rintro ⟨hl, hr, hlab, _, _⟩
                obtain ⟨tlab, tl, tr⟩ := tp
                simp only at hl hr hlab
                rw [hlab, ← Option.some.inj hl, ← Option.some.inj hr]

/-- C7: construction of a target-definition line fails exactly when the line
is malformed — wrong number of tab-separated columns, empty label, a
candidate spelling shorter than 8, a candidate with a character outside
A,C,G,T after uppercasing, or both sides carrying absence polarity — and
every surviving pair has at least one present side and only candidates of
length at least 8. -/
theorem construction_validation (line : List Char) :
    ((parsePairLine line).isSome = true ↔
      ((getDelimitedStrings '\t' line).length = 3 ∧
       (getDelimitedStrings '\t' line).getD 0 [] ≠ [] ∧
       (∀ c ∈ parsedCandidates ((getDelimitedStrings '\t' line).getD 1 []),
         8 ≤ c.length ∧ isAllACGT c = true) ∧
       (∀ c ∈ parsedCandidates ((getDelimitedStrings '\t' line).getD 2 []),
         8 ≤ c.length ∧ isAllACGT c = true) ∧
       (targetWant ((getDelimitedStrings '\t' line).getD 1 []) = true ∨
        targetWant ((getDelimitedStrings '\t' line).getD 2 []) = true))) ∧
    (∀ tp, parsePairLine line = some tp →
      (tp.left.want = true ∨ tp.right.want = true) ∧
      (∀ c ∈ tp.left.seq, 8 ≤ c.length) ∧
      (∀ c ∈ tp.right.seq, 8 ≤ c.length)) := by
  rcases hcols : getDelimitedStrings '\t' line with _ | ⟨a, tl⟩
  · exact absurd hcols (getDelimitedStrings_ne_nil '\t' line)
  · rcases tl with _ | ⟨b, tl2⟩
    · refine ⟨⟨?_, ?_⟩, ?_⟩
      · intro hsome
        rw [Option.isSome_iff_exists] at hsome
        obtain ⟨tp, htp⟩ := hsome
        unfold parsePairLine at htp
        rw [hcols] at htp
        simp at htp
      · rintro ⟨hlen, _⟩
        simp at hlen
      · intro tp htp
        unfold parsePairLine at htp
        rw [hcols] at htp
        simp at htp
    · rcases tl2 with _ | ⟨c, tl3⟩
      · refine ⟨⟨?_, ?_⟩, ?_⟩
        · intro hsome
          rw [Option.isSome_iff_exists] at hsome
          obtain ⟨tp, htp⟩ := hsome
          unfold parsePairLine at htp
          rw [hcols] at htp
          simp at htp
        · rintro ⟨hlen, _⟩
          simp at hlen
        · intro tp htp
          unfold parsePairLine at htp
          rw [hcols] at htp
          simp at htp
      · rcases tl3 with _ | ⟨d, rest⟩
        · have hp : parsePairLine line = mkTargetPair a b c := by
            unfold parsePairLine
            rw [hcols]
          refine ⟨?_, ?_⟩
          · rw [hp]
            simp only [List.getD_cons_zero, List.getD_cons_succ]
            rw [Option.isSome_iff_exists]
            constructor
            · rintro ⟨tp, htp⟩
              obtain ⟨hl, hr, hlab, hne, hdisj⟩ :=
                (mkTargetPair_iff a b c tp).mp htp
              obtain ⟨hwl, hsl, hpl⟩ := (mkTarget_iff b tp.left).mp hl
              obtain ⟨hwr, hsr, hpr⟩ := (mkTarget_iff c tp.right).mp hr
              refine ⟨by simp, hne, hpl, hpr, ?_⟩
              rcases hdisj with hd | hd
              · left; rw [← hwl]; exact hd
              · right; rw [← hwr]; exact hd
            · rintro ⟨_, hne, hpb, hpc, hdisj⟩
              refine ⟨⟨a, ⟨targetWant b, parsedCandidates b⟩,
                ⟨targetWant c, parsedCandidates c⟩⟩, ?_⟩
              exact (mkTargetPair_iff a b c _).mpr
                ⟨(mkTarget_iff b _).mpr ⟨rfl, rfl, hpb⟩,
                 (mkTarget_iff c _).mpr ⟨rfl, rfl, hpc⟩, rfl, hne, hdisj⟩
          · intro tp htp
            rw [hp] at htp
            obtain ⟨hl, hr, _, _, hdisj⟩ := (mkTargetPair_iff a b c tp).mp htp
            obtain ⟨_, hsl, hpl⟩ := (mkTarget_iff b tp.left).mp hl
            obtain ⟨_, hsr, hpr⟩ := (mkTarget_iff c tp.right).mp hr
            refine ⟨hdisj, ?_, ?_⟩
            · rw [hsl]; exact fun c2 hc2 => (hpl c2 hc2).1
            · rw [hsr]; exact fun c2 hc2 => (hpr c2 hc2).1
        · refine ⟨⟨?_, ?_⟩, ?_⟩
          · intro hsome
            rw [Option.isSome_iff_exists] at hsome
            obtain ⟨tp, htp⟩ := hsome
            unfold parsePairLine at htp
            rw [hcols] at htp
            simp at htp
          · rintro ⟨hlen, _⟩
            simp at hlen
          · intro tp htp
            unfold parsePairLine at htp
            rw [hcols] at htp
            simp at htp

/-- Closed instance of `construction_validation`: a well-formed line parses,
keeps a present side, and keeps only candidates of length at least 8. -/
theorem construction_validation_witness :
    (∀ c ∈ (TargetPair.mk ['F']
        ⟨true, [['A','A','A','A','C','C','C','C']]⟩
        ⟨true, [['G','G','G','G','T','T','T','T']]⟩).left.seq,
      8 ≤ c.length) :=
  ((construction_validation
      (['F'] ++ '\t' :: ['A','A','A','A','C','C','C','C'] ++
        '\t' :: ['G','G','G','G','T','T','T','T'])).2
    (TargetPair.mk ['F']
        ⟨true, [['A','A','A','A','C','C','C','C']]⟩
        ⟨true, [['G','G','G','G','T','T','T','T']]⟩)
    (by decide)).2.1

/-! ### Character-level facts about case conversion and complementation -/

theorem toupperChar_not_lower (c : Char) :
    ¬(97 ≤ (toupperChar c).toNat ∧ (toupperChar c).toNat ≤ 122) := by
  unfold toupperChar
  split
  · next h =>
      obtain ⟨h1, h2⟩ := h
      set n := c.toNat with hn
      interval_cases n <;> decide
  · next h => exact h

theorem toupperChar_fix_of_not_lower (c : Char)
    (h : ¬(97 ≤ c.toNat ∧ c.toNat ≤ 122)) : toupperChar c = c := by
  unfold toupperChar
  rw [if_neg h]

theorem toupperChar_idem (c : Char) :
    toupperChar (toupperChar c) = toupperChar c :=
  toupperChar_fix_of_not_lower (toupperChar c) (toupperChar_not_lower c)

theorem isACGT_upper_image (x : Char)
    (h : isACGT (toupperChar x) = true) :
    toupperChar x = 'A' ∨ toupperChar x = 'C' ∨ toupperChar x = 'G' ∨
      toupperChar x = 'T' := by
  unfold isACGT at h
  rw [toupperChar_idem] at h
  simp only [Bool.or_eq_true, decide_eq_true_eq] at h
  tauto

theorem invertChar_invol (ch : Char) :
    invertChar (invertChar ch) = ch := by
  by_cases h1 : ch = 'A'
  · subst h1; decide
  by_cases h2 : ch = 'a'
  · subst h2; decide
  by_cases h3 : ch = 'T'
  · subst h3; decide
  by_cases h4 : ch = 't'
  · subst h4; decide
  by_cases h5 : ch = 'C'
  · subst h5; decide
  by_cases h6 : ch = 'c'
  · subst h6; decide
  by_cases h7 : ch = 'G'
  · subst h7; decide
  by_cases h8 : ch = 'g'
  · subst h8; decide
  have hfix : invertChar ch = ch := by
    unfold invertChar
    split <;> simp_all
  rw [hfix, hfix]

theorem invertChar_ACGT (ch : Char)
    (h : ch = 'A' ∨ ch = 'C' ∨ ch = 'G' ∨ ch = 'T') :
    invertChar ch = 'A' ∨ invertChar ch = 'C' ∨ invertChar ch = 'G' ∨
      invertChar ch = 'T' := by
  rcases h with h | h | h | h <;> subst h <;> decide

/-! ### Membership through parsing and joining -/

theorem mem_getDelimitedStrings (d : Char) :
    ∀ (s c : List Char) (ch : Char),
    c ∈ getDelimitedStrings d s → ch ∈ c → ch ∈ s := by
  intro s
  induction s with
  | nil =>
      intro c ch hc hch
      simp [getDelimitedStrings] at hc
      subst hc
      simp at hch
  | cons x xs ih =>
      intro c ch hc hch
      simp only [getDelimitedStrings] at hc
      by_cases hx : x = d
      · rw [if_pos hx] at hc
        rcases List.mem_cons.mp hc with he | hm
        · subst he; simp at hch
        · exact List.mem_cons_of_mem x (ih c ch hm hch)
      · rw [if_neg hx] at hc
        obtain ⟨seg, rest2, hsplit⟩ := List.exists_cons_of_ne_nil
          (getDelimitedStrings_ne_nil d xs)
        rw [hsplit] at hc
        rcases List.mem_cons.mp hc with he | hm
        · subst he
          rcases List.mem_cons.mp hch with he2 | hm2
          · subst he2; simp
          · exact List.mem_cons_of_mem x
              (ih seg ch (by rw [hsplit]; simp) hm2)
        · exact List.mem_cons_of_mem x
            (ih c ch (by rw [hsplit]; simp [hm]) hch)

theorem mem_stripNeg (s : List Char) (ch : Char) (h : ch ∈ stripNeg s) :
    ch ∈ s := by
  unfold stripNeg at h
  split at h
  · exact List.mem_cons_of_mem _ h
  · exact h

theorem mkTarget_chars (ts : List Char) (t : Target)
    (hmk : mkTarget ts = some t) :
    ∀ c ∈ t.seq, ∀ ch ∈ c,
      ch = 'A' ∨ ch = 'C' ∨ ch = 'G' ∨ ch = 'T' := by
  obtain ⟨_, hseq, hprops⟩ := (mkTarget_iff ts t).mp hmk
  intro c hc ch hch
  rw [hseq] at hc
  have hacgt : isAllACGT c = true := (hprops c hc).2
  have hchACGT : isACGT ch = true := by
    unfold isAllACGT at hacgt
    exact List.all_eq_true.mp hacgt ch hch
  have hmem : ch ∈ toupperSequence ts := by
    have h1 : ch ∈ stripNeg (toupperSequence ts) :=
      mem_getDelimitedStrings '|' (stripNeg (toupperSequence ts)) c ch hc hch
    exact mem_stripNeg _ ch h1
  obtain ⟨x, _, hx⟩ := List.mem_map.mp hmem
  rw [← hx] at hchACGT ⊢
  exact isACGT_upper_image x hchACGT

theorem getDelimitedStrings_no_delim (d : Char) :
    ∀ s : List Char, d ∉ s → getDelimitedStrings d s = [s] := by
  intro s
  induction s with
  | nil => intro _; rfl
  | cons x xs ih =>
      intro h
      have hx : ¬(x = d) := fun he => h (by rw [he]; exact List.mem_cons_self d xs)
      simp only [getDelimitedStrings]
      rw [if_neg hx, ih (fun hm => h (List.mem_cons_of_mem x hm))]

theorem getDelimitedStrings_append (d : Char) :
    ∀ (p r : List Char), d ∉ p →
    getDelimitedStrings d (p ++ d :: r) = p :: getDelimitedStrings d r := by
  intro p
  induction p with
  | nil =>
      intro r _
      simp [getDelimitedStrings]
  | cons x p2 ih =>
      intro r h
      have hx : ¬(x = d) := fun he => h (by rw [he]; exact List.mem_cons_self d p2)
      simp only [List.cons_append, getDelimitedStrings, List.append_eq]
      rw [if_neg hx, ih r (fun hm => h (List.mem_cons_of_mem x hm))]

theorem getDelimitedStrings_joinBar :
    ∀ (parts : List (List Char)), parts ≠ [] → (∀ p ∈ parts, '|' ∉ p) →
    getDelimitedStrings '|' (joinBar parts) = parts
  | [] => by intro h _; exact absurd rfl h
  | [p] => by
      intro _ hnd
      show getDelimitedStrings '|' p = [p]
      exact getDelimitedStrings_no_delim '|' p (hnd p (by simp))
  | p :: q :: rest => by
      intro _ hnd
      show getDelimitedStrings '|' (p ++ '|' :: joinBar (q :: rest)) = _
      rw [getDelimitedStrings_append '|' p (joinBar (q :: rest)) (hnd p (by simp)),
        getDelimitedStrings_joinBar (q :: rest) (by simp)
          (fun x hx => hnd x (List.mem_cons_of_mem p hx))]

theorem mem_joinBar :
    ∀ (parts : List (List Char)) (ch : Char), ch ∈ joinBar parts →
      ch = '|' ∨ ∃ p ∈ parts, ch ∈ p
  | [] => by intro ch h; simp [joinBar] at h
  | [p] => by
      intro ch h
      exact Or.inr ⟨p, by simp, h⟩
  | p :: q :: rest => by
      intro ch h
      have h2 : ch ∈ p ++ '|' :: joinBar (q :: rest) := h
      rcases List.mem_append.mp h2 with hm | hm
      · exact Or.inr ⟨p, by simp, hm⟩
      · rcases List.mem_cons.mp hm with he | hm2
        · exact Or.inl he
        · rcases mem_joinBar (q :: rest) ch hm2 with he | ⟨p2, hp2, hchp2⟩
          · exact Or.inl he
          · exact Or.inr ⟨p2, List.mem_cons_of_mem p hp2, hchp2⟩

theorem map_invertChar_invol :
    ∀ l : List Char, (l.map invertChar).map invertChar = l := by
  intro l
  induction l with
  | nil => rfl
  | cons x xs ih => simp [invertChar_invol, ih]

theorem toupperSequence_fix :
    ∀ (s : List Char), (∀ ch ∈ s, toupperChar ch = ch) →
    toupperSequence s = s := by
  intro s
  induction s with
  | nil => intro _; rfl
  | cons x xs ih =>
      intro h
      show toupperChar x :: toupperSequence xs = x :: xs
      rw [h x (List.mem_cons_self x xs),
        ih (fun ch hch => h ch (List.mem_cons_of_mem x hch))]

theorem isNeg_cons_of_ne (x : Char) (l : List Char) (h : x ≠ '-') :
    isNeg (x :: l) = false := by
  unfold isNeg
  split <;> simp_all

theorem stripNeg_cons_of_ne (x : Char) (l : List Char) (h : x ≠ '-') :
    stripNeg (x :: l) = x :: l := by
  unfold stripNeg
  split <;> simp_all

theorem joinBar_cons_head (x : Char) (l : List Char)
    (rest : List (List Char)) :
    ∃ tailL, joinBar ((x :: l) :: rest) = x :: tailL := by
  cases rest with
  | nil => exact ⟨l, rfl⟩
  | cons q r2 => exact ⟨l ++ '|' :: joinBar (q :: r2), rfl⟩

theorem joinBar_head_not_minus (parts : List (List Char)) (hne : parts ≠ [])
    (hchars : ∀ p ∈ parts, ∀ ch ∈ p,
      ch = 'A' ∨ ch = 'C' ∨ ch = 'G' ∨ ch = 'T')
    (hlen : ∀ p ∈ parts, 8 ≤ p.length) :
    isNeg (joinBar parts) = false ∧
      stripNeg (joinBar parts) = joinBar parts := by
  obtain ⟨c0, rest, hsplit⟩ := List.exists_cons_of_ne_nil hne
  have hc0ne : c0 ≠ [] := by
    intro h
    have := hlen c0 (by rw [hsplit]; simp)
    rw [h] at this
    simp at this
  obtain ⟨x, l, hc0⟩ := List.exists_cons_of_ne_nil hc0ne
  have hx : x = 'A' ∨ x = 'C' ∨ x = 'G' ∨ x = 'T' :=
    hchars c0 (by rw [hsplit]; simp) x (by rw [hc0]; simp)
  have hxm : x ≠ '-' := by
    rcases hx with h | h | h | h <;> subst h <;> decide
  obtain ⟨tailL, hjoin⟩ := joinBar_cons_head x l rest
  rw [hsplit, hc0, hjoin]
  exact ⟨isNeg_cons_of_ne x tailL hxm, stripNeg_cons_of_ne x tailL hxm⟩

theorem mkTarget_revcomp (t : Target)
    (hne : t.seq ≠ [])
    (hlen : ∀ c ∈ t.seq, 8 ≤ c.length)
    (hchars : ∀ c ∈ t.seq, ∀ ch ∈ c,
      ch = 'A' ∨ ch = 'C' ∨ ch = 'G' ∨ ch = 'T') :
    mkTarget t.reverseComplement = some ⟨t.want, t.seq.map revcompSeq⟩ := by
  have hmapchars : ∀ c ∈ t.seq.map revcompSeq, ∀ ch ∈ c,
      ch = 'A' ∨ ch = 'C' ∨ ch = 'G' ∨ ch = 'T' := by
    intro c hc ch hch
    obtain ⟨c0, hc0, hc0e⟩ := List.mem_map.mp hc
    rw [← hc0e] at hch
    obtain ⟨x, hx, hxe⟩ := List.mem_map.mp hch
    have hxmem : x ∈ c0 := List.mem_reverse.mp hx
    rw [← hxe]
    exact invertChar_ACGT x (hchars c0 hc0 x hxmem)
  have hmaplen : ∀ c ∈ t.seq.map revcompSeq, 8 ≤ c.length := by
    intro c hc
    obtain ⟨c0, hc0, hc0e⟩ := List.mem_map.mp hc
    rw [← hc0e]
    have hl : (revcompSeq c0).length = c0.length := by
      simp [revcompSeq, invertSequence, reverseSequence]
    rw [hl]
    exact hlen c0 hc0
  have hnobar : ∀ p ∈ t.seq.map revcompSeq, '|' ∉ p := by
    intro p hp hbar
    rcases hmapchars p hp '|' hbar with h | h | h | h <;>
      exact absurd h (by decide)
  have hmapne : t.seq.map revcompSeq ≠ [] := by
    cases hs : t.seq with
    | nil => exact absurd hs hne
    | cons c0 rest => simp
  have hmapeq : t.seq.map (fun s => invertSequence (reverseSequence s)) =
      t.seq.map revcompSeq := rfl
  have hjoinchars : ∀ ch ∈ joinBar (t.seq.map revcompSeq),
      ch = 'A' ∨ ch = 'C' ∨ ch = 'G' ∨ ch = 'T' ∨ ch = '|' := by
    intro ch hch
    rcases mem_joinBar _ ch hch with he | ⟨p, hp, hchp⟩
    · tauto
    · have := hmapchars p hp ch hchp
      tauto
  have hheads := joinBar_head_not_minus (t.seq.map revcompSeq) hmapne
    hmapchars hmaplen
  have hrc : t.reverseComplement =
      (if t.want then [] else ['-']) ++ joinBar (t.seq.map revcompSeq) := by
    unfold Target.reverseComplement
    rw [hmapeq]
  have hup : toupperSequence t.reverseComplement = t.reverseComplement := by
    apply toupperSequence_fix
    intro ch hch
    rw [hrc] at hch
    have hcases : ch = 'A' ∨ ch = 'C' ∨ ch = 'G' ∨ ch = 'T' ∨ ch = '|' ∨
        ch = '-' := by
      rcases List.mem_append.mp hch with hm | hm
      · cases hw : t.want
        · rw [hw] at hm
          simp at hm
          tauto
        · rw [hw] at hm
          simp at hm
      · have := hjoinchars ch hm
        tauto
    rcases hcases with h | h | h | h | h | h <;> subst h <;> decide
  have hwant : targetWant t.reverseComplement = t.want := by
    unfold targetWant
    rw [hup, hrc]
    cases hw : t.want
    · rfl
    · show (!isNeg (joinBar (t.seq.map revcompSeq))) = true
      rw [hheads.1]
      rfl
  have hseq : parsedCandidates t.reverseComplement = t.seq.map revcompSeq := by
    unfold parsedCandidates
    rw [hup, hrc]
    cases hw : t.want
    · show getDelimitedStrings '|' (joinBar (t.seq.map revcompSeq)) = _
      exact getDelimitedStrings_joinBar _ hmapne hnobar
    · show getDelimitedStrings '|'
        (stripNeg (joinBar (t.seq.map revcompSeq))) = _
      rw [hheads.2]
      exact getDelimitedStrings_joinBar _ hmapne hnobar
  apply (mkTarget_iff _ _).mpr
  refine ⟨hwant.symm, hseq.symm, ?_⟩
  rw [hseq]
  intro c hc
  refine ⟨hmaplen c hc, ?_⟩
  unfold isAllACGT
  rw [List.all_eq_true]
  intro ch hch
  rcases hmapchars c hc ch hch with h | h | h | h <;> subst h <;> decide

theorem parsePairLine_shape (line : List Char) (tp : TargetPair)
    (hres : parsePairLine line = some tp) :
    ∃ a b c, getDelimitedStrings '\t' line = [a, b, c] ∧
      mkTargetPair a b c = some tp := by
  unfold parsePairLine at hres
  rcases hcols : getDelimitedStrings '\t' line with _ | ⟨a, _ | ⟨b, _ | ⟨c, _ | ⟨d, rest⟩⟩⟩⟩ <;>
    rw [hcols] at hres
  · simp at hres
  · simp at hres
  · simp at hres
  · exact ⟨a, b, c, rfl, hres⟩
  · simp at hres

theorem mkTarget_invariants (ts : List Char) (t : Target)
    (h : mkTarget ts = some t) :
    t.seq ≠ [] ∧ (∀ c ∈ t.seq, 8 ≤ c.length) ∧
    (∀ c ∈ t.seq, ∀ ch ∈ c, ch = 'A' ∨ ch = 'C' ∨ ch = 'G' ∨ ch = 'T') := by
  obtain ⟨_, hseq, hp⟩ := (mkTarget_iff ts t).mp h
  refine ⟨by rw [hseq]; exact getDelimitedStrings_ne_nil _ _, ?_,
    mkTarget_chars ts t h⟩
  intro c hc
  rw [hseq] at hc
  exact (hp c hc).1

theorem revcompSeq_invol (s : List Char) : revcompSeq (revcompSeq s) = s := by
  show List.map invertChar
    (List.reverse (List.map invertChar (List.reverse s))) = s
  rw [← List.map_reverse, List.reverse_reverse, map_invertChar_invol]

theorem map_revcompSeq_invol (l : List (List Char)) :
    (l.map revcompSeq).map revcompSeq = l := by
  induction l with
  | nil => rfl
  | cons x xs ih => simp [revcompSeq_invol, ih]

theorem map_revcompSeq_invariants (l : List (List Char)) (hne : l ≠ [])
    (hlen : ∀ c ∈ l, 8 ≤ c.length)
    (hchars : ∀ c ∈ l, ∀ ch ∈ c,
      ch = 'A' ∨ ch = 'C' ∨ ch = 'G' ∨ ch = 'T') :
    l.map revcompSeq ≠ [] ∧ (∀ c ∈ l.map revcompSeq, 8 ≤ c.length) ∧
    (∀ c ∈ l.map revcompSeq, ∀ ch ∈ c,
      ch = 'A' ∨ ch = 'C' ∨ ch = 'G' ∨ ch = 'T') := by
  refine ⟨?_, ?_, ?_⟩
  · cases l with
    | nil => exact absurd rfl hne
    | cons x xs => simp
  · intro c hc
    obtain ⟨c0, hc0, hc0e⟩ := List.mem_map.mp hc
    rw [← hc0e]
    have hl : (revcompSeq c0).length = c0.length := by
      simp [revcompSeq, invertSequence, reverseSequence]
    rw [hl]
    exact hlen c0 hc0
  · intro c hc ch hch
    obtain ⟨c0, hc0, hc0e⟩ := List.mem_map.mp hc
    rw [← hc0e] at hch
    obtain ⟨x, hx, hxe⟩ := List.mem_map.mp hch
    rw [← hxe]
    exact invertChar_ACGT x (hchars c0 hc0 x (List.mem_reverse.mp hx))

/-- C5: every accepted pair-definition line contributes exactly two catalog
entries, the parsed pair and its mirror; the mirror keeps the label, its
left side is the reverse complement of the original right side and its right
side the reverse complement of the original left side, with polarity and
candidate order preserved and each candidate reversed and base-swapped. -/
theorem mirror_catalog (line : List Char) (tp : TargetPair)
    (hres : parsePairLine line = some tp) :
    processPairLine line =
      some [tp, ⟨tp.label, ⟨tp.right.want, tp.right.seq.map revcompSeq⟩,
        ⟨tp.left.want, tp.left.seq.map revcompSeq⟩⟩] := by
  obtain ⟨a, b, c, hcols, hmk⟩ := parsePairLine_shape line tp hres
  obtain ⟨hl, hr, hlab, hane, hdisj⟩ := (mkTargetPair_iff a b c tp).mp hmk
  obtain ⟨hLn, hLlen, hLch⟩ := mkTarget_invariants b tp.left hl
  obtain ⟨hRn, hRlen, hRch⟩ := mkTarget_invariants c tp.right hr
  have hmirL := mkTarget_revcomp tp.right hRn hRlen hRch
  have hmirR := mkTarget_revcomp tp.left hLn hLlen hLch
  have hcreate : createReverseComplement tp =
      some ⟨tp.label, ⟨tp.right.want, tp.right.seq.map revcompSeq⟩,
        ⟨tp.left.want, tp.left.seq.map revcompSeq⟩⟩ := by
    unfold createReverseComplement
    apply (mkTargetPair_iff _ _ _ _).mpr
    refine ⟨hmirL, hmirR, rfl, ?_, ?_⟩
    · rw [hlab]; exact hane
    · show tp.right.want = true ∨ tp.left.want = true
      tauto
  show (parsePairLine line).bind
    (fun tp2 => (createReverseComplement tp2).bind
      (fun m => some [tp2, m])) = _
  rw [hres]
  show (createReverseComplement tp).bind (fun m => some [tp, m]) = _
  rw [hcreate]
  rfl

/-- Closed instance of `mirror_catalog` at a concrete definition line. -/
theorem mirror_catalog_witness :
    processPairLine
      (['F'] ++ '\t' :: ['A','A','A','A','C','C','C','C'] ++
        '\t' :: ['G','G','G','G','T','T','T','T']) =
      some [⟨['F'], ⟨true, [['A','A','A','A','C','C','C','C']]⟩,
              ⟨true, [['G','G','G','G','T','T','T','T']]⟩⟩,
            ⟨['F'],
             ⟨true, [['G','G','G','G','T','T','T','T']].map revcompSeq⟩,
             ⟨true, [['A','A','A','A','C','C','C','C']].map revcompSeq⟩⟩] :=
  mirror_catalog
    (['F'] ++ '\t' :: ['A','A','A','A','C','C','C','C'] ++
      '\t' :: ['G','G','G','G','T','T','T','T'])
    ⟨['F'], ⟨true, [['A','A','A','A','C','C','C','C']]⟩,
     ⟨true, [['G','G','G','G','T','T','T','T']]⟩⟩
    (by decide)

/-- C6: reverse-then-complement is an involution: applying it twice to any
candidate string reproduces the string, and mirroring a validly constructed
sequence set twice reproduces the set's polarity and candidate content. -/
theorem revcomp_involution (s ts : List Char) (t : Target) :
    revcompSeq (revcompSeq s) = s ∧
    (mkTarget ts = some t →
      mkTarget t.reverseComplement = some ⟨t.want, t.seq.map revcompSeq⟩ ∧
      mkTarget (Target.mk t.want (t.seq.map revcompSeq)).reverseComplement =
        some t) := by
  refine ⟨revcompSeq_invol s, ?_⟩
  intro hmk
  obtain ⟨hne, hlen, hchars⟩ := mkTarget_invariants ts t hmk
  have h1 := mkTarget_revcomp t hne hlen hchars
  refine ⟨h1, ?_⟩
  obtain ⟨hne2, hlen2, hchars2⟩ :=
    map_revcompSeq_invariants t.seq hne hlen hchars
  have h2 := mkTarget_revcomp ⟨t.want, t.seq.map revcompSeq⟩ hne2 hlen2 hchars2
  rw [show (Target.mk t.want (t.seq.map revcompSeq)).seq =
    t.seq.map revcompSeq from rfl, map_revcompSeq_invol] at h2
  exact h2

/-- Closed instance of `revcomp_involution`: mirroring the mirror of the
single-candidate set of eight bases reproduces the original set. -/
theorem revcomp_involution_witness :
    mkTarget (Target.mk true
        ([['A','A','A','A','C','C','C','C']].map revcompSeq)).reverseComplement =
      some ⟨true, [['A','A','A','A','C','C','C','C']]⟩ :=
  ((revcomp_involution [] ['A','A','A','A','C','C','C','C']
      ⟨true, [['A','A','A','A','C','C','C','C']]⟩).2 (by decide)).2

/-! ### Output formatting -/

theorem substrInt_window (read : List Char) (a b : Nat) :
    substrInt read (a : Int) (b : Int) = (read.drop a).take b := by
  unfold substrInt
  rw [show ((a : Int)).toNat = a from by omega,
    show ((b : Int)).toNat = b from by omega]

theorem initial_piece (read : List Char) (a : Nat) :
    (if (a : Int) > 0 then substrInt read 0 (a : Int) else []) =
      read.take a := by
  by_cases h : 0 < a
  · rw [if_pos (by omega)]
    unfold substrInt
    rw [show ((0 : Int)).toNat = 0 from rfl,
      show ((a : Int)).toNat = a from by omega]
    rfl
  · rw [if_neg (by omega)]
    have ha : a = 0 := by omega
    rw [ha]
    rfl

theorem mid_piece (read : List Char) (a m b : Nat) :
    (if (b : Int) - (a : Int) - (m : Int) > 0 then
       substrInt read ((a : Int) + (m : Int))
         ((b : Int) - (a : Int) - (m : Int))
     else []) = (read.drop (a + m)).take (b - (a + m)) := by
  by_cases h : a + m < b
  · rw [if_pos (by omega)]
    unfold substrInt
    rw [show (((a : Int) + (m : Int))).toNat = a + m from by omega,
      show (((b : Int) - (a : Int) - (m : Int))).toNat = b - (a + m) from by
        omega]
  · rw [if_neg (by omega)]
    rw [show b - (a + m) = 0 from by omega]
    simp

theorem tail_piece (read : List Char) (a m : Nat) :
    (if (read.length : Int) - (a : Int) - (m : Int) > 0 then
       substrInt read ((a : Int) + (m : Int))
         ((read.length : Int) - (a : Int) - (m : Int))
     else []) = read.drop (a + m) := by
  rw [mid_piece read a m read.length]
  have hlen2 : (read.drop (a + m)).length = read.length - (a + m) :=
    List.length_drop _ _
  rw [← hlen2]
  exact List.take_length _

/-- C9 (amended): the emitted line is the read name, a tab, the read sequence
with each required side's matched span bracketed — positions equal to the
matched candidate reproduced literally and differing positions lowercased
(not case-inverted) — literal bases elsewhere, spans in read order, a tab,
and the pair's label. -/
theorem writeMatch_format (tp : TargetPair) (readName read : List Char)
    (li ri ls rs : Nat)
    (hpol : tp.left.want = true ∨ tp.right.want = true)
    (_hLb : tp.left.want = true →
      ls + seqlenAt tp.left li ≤
        (if tp.right.want = true then rs else read.length))
    (_hRb : tp.right.want = true → rs + seqlenAt tp.right ri ≤ read.length) :
    writeMatch tp readName read li (ls : Int) ri (rs : Int) =
      claimedLine tolowerChar tp readName read li ls ri rs := by
  cases hlw : tp.left.want with
  | true =>
      cases hrw : tp.right.want with
      | true =>
          simp only [writeMatch, claimedLine, annotateWith, highlight, hlw, hrw,
            if_true]
          rw [initial_piece, substrInt_window, substrInt_window, mid_piece,
            tail_piece]
          simp [List.append_assoc]
      | false =>
          simp only [writeMatch, claimedLine, annotateWith, highlight, hlw, hrw,
            if_true, Bool.false_eq_true, if_false]
          rw [initial_piece, substrInt_window, tail_piece]
          simp [List.append_assoc]
  | false =>
      cases hrw : tp.right.want with
      | true =>
          simp only [writeMatch, claimedLine, annotateWith, highlight, hlw, hrw,
            if_true, Bool.false_eq_true, if_false]
          rw [initial_piece, substrInt_window, tail_piece]
          simp [List.append_assoc]
      | false =>
          rw [hlw] at hpol
          rw [hrw] at hpol
          rcases hpol with h | h <;> simp at h

/-- C9 counterexample: the sixteen-base read of a lowercase a, seven A bases
and eight G bases is a confirmed match for the pair with left candidate of
eight A bases required present and right candidate of eight C bases required
absent, at maxsub 1 (the pair predicate evaluates true, and the left search
called with the right reserve of maxseqlen = 8 records candidate 0 at start
0, so these are the offsets the reporter receives); at the differing
position the code emits the lowercase character unchanged (std::tolower),
while the claim's case-inversion would emit the uppercase character, so the
claim as stated disagrees with the code at this confirmed-match input. -/
theorem writeMatch_claim_counterexample :
    findMatchOnRead 1
        ⟨['L'], ⟨true, [List.replicate 8 'A']⟩,
         ⟨false, [List.replicate 8 'C']⟩⟩
        ('a' :: List.replicate 7 'A' ++ List.replicate 8 'G') = true ∧
    findLeftmost 1
        (charAt ('a' :: List.replicate 7 'A' ++ List.replicate 8 'G')) 16 8
        ⟨true, [List.replicate 8 'A']⟩ = some (0, 0) ∧
    writeMatch
        ⟨['L'], ⟨true, [List.replicate 8 'A']⟩,
         ⟨false, [List.replicate 8 'C']⟩⟩
        ['r'] ('a' :: List.replicate 7 'A' ++ List.replicate 8 'G') 0 0 0 0 ≠
      claimedLine caseInvChar
        ⟨['L'], ⟨true, [List.replicate 8 'A']⟩,
         ⟨false, [List.replicate 8 'C']⟩⟩
        ['r'] ('a' :: List.replicate 7 'A' ++ List.replicate 8 'G') 0 0 0 0 := by
  refine ⟨?_, ?_, ?_⟩ <;> decide

/-- Closed instance of `writeMatch_format` at the spec's worked example. -/
theorem writeMatch_format_witness :
    writeMatch
        ⟨['F'], ⟨true, [['A','A','A','A','C','C','C','C']]⟩,
         ⟨true, [['G','G','G','G','T','T','T','T']]⟩⟩
        ['r']
        (List.replicate 3 'N' ++ ['A','A','A','A','C','C','C','C'] ++
          List.replicate 4 'x' ++ ['G','G','G','G','T','T','T','T'] ++
          List.replicate 3 'N')
        0 (3 : Nat) 0 (15 : Nat) =
      claimedLine tolowerChar
        ⟨['F'], ⟨true, [['A','A','A','A','C','C','C','C']]⟩,
         ⟨true, [['G','G','G','G','T','T','T','T']]⟩⟩
        ['r']
        (List.replicate 3 'N' ++ ['A','A','A','A','C','C','C','C'] ++
          List.replicate 4 'x' ++ ['G','G','G','G','T','T','T','T'] ++
          List.replicate 3 'N')
        0 3 0 15 :=
  writeMatch_format
    ⟨['F'], ⟨true, [['A','A','A','A','C','C','C','C']]⟩,
     ⟨true, [['G','G','G','G','T','T','T','T']]⟩⟩
    ['r']
    (List.replicate 3 'N' ++ ['A','A','A','A','C','C','C','C'] ++
      List.replicate 4 'x' ++ ['G','G','G','G','T','T','T','T'] ++
      List.replicate 3 'N')
    0 0 3 15 (by decide) (by decide) (by decide)
